import Mathlib

/-!
Verification of the studying-helper document pipeline.

This file gives a shallow embedding, in Lean 4, of the core algorithms of the
repository (page-offset resolution, catalog path-id assignment, org-chart
merging, knowledge-point extraction and deduplication, FAISS-backed search
post-processing, the lexical RAG selection, and the question-driven subgraph
filter), together with theorems settling the specification claims about them.

Conventions of the embedding:
* Python dicts with a fixed field set become Lean inductive types with
  accessor functions; absent JSON fields become `Option` values.
* Python `while` loops and breadth-first traversals whose termination is part
  of what we prove are modelled with an explicit fuel parameter; the canonical
  fuel used by the pipeline is shown to be sufficient (adding fuel does not
  change the result).
* Iteration over a Python `set` has no specified order; such iterations are
  modelled by quantifying over an arbitrary duplicate-free enumeration of the
  set.
* Machine integers are `Int`/`Nat` (Python integers are unbounded, so no
  wrap-around is needed); floating-point values are outside the model.
-/

namespace StudyingHelper

/-! ## Embedding of `src/get_catalog.py` -/

/-- A declared page value as it appears in the catalog JSON produced by the
LLM: either an integer or some other (non-integer) JSON value, remembered by
its printed form.  Python floats are outside the model. -/
inductive PageVal where
  | num (n : Int)
  | other (s : String)
deriving DecidableEq

/-- An entry of a node's `knowledge_points` list: a string, or some
non-string JSON value (which the extractor skips). -/
inductive KPVal where
  | str (s : String)
  | nonStr
deriving DecidableEq

/-- A catalog node (`chapters` tree).  A missing `children` field, or a
non-list `children` value such as `""`, behaves in every modelled function
exactly like an empty children list, so both are modelled by `[]`. -/
inductive CatNode where
  | mk (name : String) (ntype : Option String)
      (starting_page ending_page : Option PageVal)
      (actual_starting_page actual_ending_page : Option String)
      (knowledge_points : List KPVal)
      (children : List CatNode)

def CatNode.name : CatNode → String
  | .mk v _ _ _ _ _ _ _ => v

def CatNode.ntype : CatNode → Option String
  | .mk _ v _ _ _ _ _ _ => v

def CatNode.starting_page : CatNode → Option PageVal
  | .mk _ _ v _ _ _ _ _ => v

def CatNode.ending_page : CatNode → Option PageVal
  | .mk _ _ _ v _ _ _ _ => v

def CatNode.actual_starting_page : CatNode → Option String
  | .mk _ _ _ _ v _ _ _ => v

def CatNode.actual_ending_page : CatNode → Option String
  | .mk _ _ _ _ _ v _ _ => v

def CatNode.knowledge_points : CatNode → List KPVal
  | .mk _ _ _ _ _ _ v _ => v

def CatNode.children : CatNode → List CatNode
  | .mk _ _ _ _ _ _ _ v => v

/-- Deep membership of a node in a catalog forest (the node itself or a
descendant of a forest member). -/
inductive InCatForest (x : CatNode) : List CatNode → Prop where
  | top {ns : List CatNode} : x ∈ ns → InCatForest x ns
  | deeper {ns : List CatNode} (m : CatNode) (hm : m ∈ ns)
      (h : InCatForest x m.children) : InCatForest x ns

/-- Value of an ASCII decimal digit (Python's `\d` also accepts non-ASCII
Unicode decimal digits, which are not modelled). -/
def digitVal? (c : Char) : Option Nat :=
  if c.isDigit then some (c.toNat - 48) else none

/-- Case-insensitive comparison of a text character against a lower-case
pattern character, as under `re.IGNORECASE`. -/
def lowEq (c d : Char) : Bool := c.toLower = d

/-- Try to match the regex `page(\d{4})\.txt` (case-insensitive) starting at
the head of `cs`, returning the numeric value of the four digits. -/
def pageMatchHere (cs : List Char) : Option Nat :=
  match cs with
  | p :: a :: g :: e :: d1 :: d2 :: d3 :: d4 :: dot :: t1 :: x1 :: t2 :: _ =>
    if lowEq p 'p' && lowEq a 'a' && lowEq g 'g' && lowEq e 'e' &&
       dot == '.' && lowEq t1 't' && lowEq x1 'x' && lowEq t2 't' then
      match digitVal? d1, digitVal? d2, digitVal? d3, digitVal? d4 with
      | some v1, some v2, some v3, some v4 =>
          some (((v1 * 10 + v2) * 10 + v3) * 10 + v4)
      | _, _, _, _ => none
    else none
  | _ => none

/-- Leftmost occurrence search, mirroring `re.search`. -/
def searchPageNum : List Char → Option Nat
  | [] => none
  | c :: rest =>
    match pageMatchHere (c :: rest) with
    | some v => some v
    | none => searchPageNum rest

/-- `get_filename_number`: extract the page number from a file name such as
`page0009.txt` (for example 9), or `none` when the pattern does not occur. -/
def get_filename_number (filename : String) : Option Int :=
  (searchPageNum filename.data).map (fun v => (v : Int))

/-- Left-pad a string with `'0'` up to width `w`. -/
def zeroPad (w : Nat) (s : String) : String :=
  if s.length ≥ w then s else String.mk (List.replicate (w - s.length) '0') ++ s

/-- `format_filename`: Python `f"page{number:04d}.txt"`.  For a negative
number the minus sign counts towards the width, as in Python. -/
def format_filename (number : Int) : String :=
  if number < 0 then "page-" ++ zeroPad 3 (toString number.natAbs) ++ ".txt"
  else "page" ++ zeroPad 4 (toString number.natAbs) ++ ".txt"

/-- The resolved-page string `_apply_offset_recursive` stores for one declared
page field: the shifted file name for an integer page, and the sentinel
strings `INVALID_PAGE_FORMAT` / `PAGE_NOT_SPECIFIED` otherwise. -/
def resolvePage (page : Option PageVal) (offset : Int) : String :=
  match page with
  | some (.num n) => format_filename (n + offset)
  | some (.other _) => "INVALID_PAGE_FORMAT"
  | none => "PAGE_NOT_SPECIFIED"

mutual
/-- One node's update in `_apply_offset_recursive`: set `actual_starting_page`
and `actual_ending_page` from the declared pages and the offset, then recurse
into the children. -/
def apply_offset_node (offset : Int) : CatNode → CatNode
  | .mk name ntype sp ep _ _ kps children =>
      .mk name ntype sp ep
        (some (resolvePage sp offset)) (some (resolvePage ep offset))
        kps (apply_offset_list offset children)
/-- `_apply_offset_recursive` over a list of sibling nodes. -/
def apply_offset_list (offset : Int) : List CatNode → List CatNode
  | [] => []
  | n :: rest => apply_offset_node offset n :: apply_offset_list offset rest
end

mutual
/-- `_find_first_leaf_recursive` on a single node: the node itself when it is
a leaf, else the first leaf inside a `tree` node's children. -/
def find_first_leaf_node (n : CatNode) : Option CatNode :=
  match n with
  | .mk _ ntype _ _ _ _ _ children =>
    if ntype = some "leaf" then some n
    else if ntype = some "tree" then find_first_leaf_list children
    else none
/-- `_find_first_leaf_recursive`: first leaf of a forest in document order. -/
def find_first_leaf_list : List CatNode → Option CatNode
  | [] => none
  | n :: rest =>
    match find_first_leaf_node n with
    | some l => some l
    | none => find_first_leaf_list rest
end

/-- Result of `apply_offset_and_save` on the `chapters` list: the offset that
was applied (or `none` when resolution failed and the data was saved
unchanged), together with the saved chapters.

The deletion of the first leaf's `actual_starting_page` before the recursive
pass is not modelled separately: the recursive pass overwrites
`actual_starting_page` on every node, so the deletion never affects the saved
output. -/
def apply_offset_and_save (chapters : List CatNode) : Option Int × List CatNode :=
  match find_first_leaf_list chapters with
  | none => (none, chapters)
  | some fl =>
    match fl.starting_page with
    | some (.num p) =>
      match fl.actual_starting_page with
      | some s =>
        if s = "" then (none, chapters)
        else
          match get_filename_number s with
          | some a => (some (a - p), apply_offset_list (a - p) chapters)
          | none => (none, chapters)
      | none => (none, chapters)
    | _ => (none, chapters)

/-! ## Embedding of `src/embedding.py` -/

/-- Python `str.strip()`: drop leading and trailing whitespace (ASCII
whitespace; exotic Unicode space characters are not modelled). -/
def pyStrip (s : String) : String :=
  String.mk
    (((s.data.dropWhile Char.isWhitespace).reverse.dropWhile
        Char.isWhitespace).reverse)

mutual
/-- `_extract_recursive` on one node: the stripped, non-empty string entries
of its `knowledge_points`, followed by the entries of its children. -/
def extract_kps_node : CatNode → List String
  | .mk _ _ _ _ _ _ kps children =>
      kps.filterMap (fun k =>
        match k with
        | .str s => if pyStrip s ≠ "" then some (pyStrip s) else none
        | .nonStr => none)
      ++ extract_kps_list children
/-- `_extract_recursive` over a list of sibling nodes. -/
def extract_kps_list : List CatNode → List String
  | [] => []
  | n :: rest => extract_kps_node n ++ extract_kps_list rest
end

/-- Python `list(dict.fromkeys(xs))` generalised with an accumulator of keys
already seen: keep the first occurrence of each element, drop later
duplicates, preserve order. -/
def dedupKeepFirst (seen : List String) : List String → List String
  | [] => []
  | x :: xs =>
    if x ∈ seen then dedupKeepFirst seen xs
    else x :: dedupKeepFirst (x :: seen) xs

/-- `extract_knowledge_points_from_json` after a successful JSON load: collect
all knowledge-point strings and deduplicate them preserving first-seen order.
The resulting list is the persisted id-to-text mapping: position `i` is the
text for vector `i`. -/
def extract_knowledge_points (chapters : List CatNode) : List String :=
  dedupKeepFirst [] (extract_kps_list chapters)

/-! ## Embedding of `src/get_orgchart.py`: path-id assignment -/

/-- An outline node as consumed by `traverse_and_process_leaves`: an optional
explicit integer `index` field and a children list.  A missing or non-list
`children` value behaves like `[]`. -/
inductive ONode where
  | mk (name : String) (ntype : Option String) (index : Option Int)
      (children : List ONode)

def ONode.name : ONode → String
  | .mk v _ _ _ => v

def ONode.ntype : ONode → Option String
  | .mk _ v _ _ => v

def ONode.index : ONode → Option Int
  | .mk _ _ v _ => v

def ONode.children : ONode → List ONode
  | .mk _ _ _ v => v

/-- An outline node annotated with its `generated_path_id`. -/
inductive PNode where
  | mk (pathId : String) (name : String) (ntype : Option String)
      (index : Option Int) (children : List PNode)

def PNode.pathId : PNode → String
  | .mk v _ _ _ _ => v

def PNode.name : PNode → String
  | .mk _ v _ _ _ => v

def PNode.ntype : PNode → Option String
  | .mk _ _ v _ _ => v

def PNode.index : PNode → Option Int
  | .mk _ _ _ v _ => v

def PNode.children : PNode → List PNode
  | .mk _ _ _ _ v => v

/-- Deep membership of an annotated node in an annotated forest. -/
inductive InPForest (x : PNode) : List PNode → Prop where
  | top {ns : List PNode} : x ∈ ns → InPForest x ns
  | deeper {ns : List PNode} (m : PNode) (hm : m ∈ ns)
      (h : InPForest x m.children) : InPForest x ns

/-- The sibling ordinal string of the node at 0-based position `i` with
explicit index field `idx`: Python `str(index)` when the field is present,
else `str(i + 1)`. -/
def ordStr (i : Nat) (idx : Option Int) : String :=
  match idx with
  | some v => toString v
  | none => toString (i + 1)

/-- Python `f"{parent}{'.' if parent else ''}{ord}"`. -/
def joinPath (parent ordinal : String) : String :=
  if parent = "" then ordinal else parent ++ "." ++ ordinal

mutual
/-- Path-id assignment of `traverse_and_process_leaves` for one node given
its already-computed ordinal string. -/
def assign_node (parent ordinal : String) : ONode → PNode
  | .mk name ntype idx children =>
      .mk (joinPath parent ordinal) name ntype idx
        (assign_list (joinPath parent ordinal) 0 children)
/-- Path-id assignment for a sibling list starting at 0-based position `i`. -/
def assign_list (parent : String) (i : Nat) : List ONode → List PNode
  | [] => []
  | n :: rest =>
      assign_node parent (ordStr i n.index) n :: assign_list parent (i + 1) rest
end

mutual
/-- All path ids in the subtree of an annotated node, in document order. -/
def path_ids_node : PNode → List String
  | .mk pid _ _ _ children => pid :: path_ids_list children
/-- All path ids of an annotated forest, in document order. -/
def path_ids_list : List PNode → List String
  | [] => []
  | n :: rest => path_ids_node n ++ path_ids_list rest
end

/-- Boolean pairwise-distinctness check for a list of strings. -/
def allDiff : List String → Bool
  | [] => true
  | x :: xs => !xs.contains x && allDiff xs

/-- Ordinal strings of a sibling list starting at 0-based position `i`. -/
def ordsOfList (i : Nat) : List ONode → List String
  | [] => []
  | n :: rest => ordStr i n.index :: ordsOfList (i + 1) rest

mutual
/-- Distinctness of sibling ordinals inside one node's subtree. -/
def good_node : ONode → Bool
  | .mk _ _ _ children => allDiff (ordsOfList 0 children) && good_nodes children
/-- Distinctness of sibling ordinals inside each node of a list. -/
def good_nodes : List ONode → Bool
  | [] => true
  | n :: rest => good_node n && good_nodes rest
end

/-- Distinctness of sibling ordinals at every level of a forest, including
the top level.  This holds in particular whenever no node carries an explicit
`index` field. -/
def good_forest (ns : List ONode) : Bool :=
  allDiff (ordsOfList 0 ns) && good_nodes ns

/-! ## Embedding of `src/get_orgchart.py`: merging -/

/-- One node of a per-leaf internal org chart, as loaded from a chapter's
`.orgchart.json` file. -/
structure INode where
  id : Option String
  pid : Option String
  name : Option String
  title : Option String
deriving DecidableEq

/-- A catalog node as consumed by `merge_all_orgchart_data`, after
`traverse_and_process_leaves` stored `generated_path_id` on it.  The
`internal` field is the content of the leaf's `.orgchart.json` file:
`none` when the file is missing, unreadable or not a JSON list. -/
inductive MNode where
  | mk (generated_path_id : Option String) (name : Option String)
      (ntype : Option String) (knowledge_points : List String)
      (internal : Option (List INode)) (children : List MNode)

def MNode.generated_path_id : MNode → Option String
  | .mk v _ _ _ _ _ => v

def MNode.name : MNode → Option String
  | .mk _ v _ _ _ _ => v

def MNode.ntype : MNode → Option String
  | .mk _ _ v _ _ _ => v

def MNode.knowledge_points : MNode → List String
  | .mk _ _ _ v _ _ => v

def MNode.internal : MNode → Option (List INode)
  | .mk _ _ _ _ v _ => v

def MNode.children : MNode → List MNode
  | .mk _ _ _ _ _ v => v

/-- Deep membership of a catalog node in a merge-input forest. -/
inductive InMForest (x : MNode) : List MNode → Prop where
  | top {ns : List MNode} : x ∈ ns → InMForest x ns
  | deeper {ns : List MNode} (m : MNode) (hm : m ∈ ns)
      (h : InMForest x m.children) : InMForest x ns

mutual
/-- Check that every node of a merge-input forest carries a
`generated_path_id` (as is the case after `traverse_and_process_leaves`). -/
def ids_assigned_node : MNode → Bool
  | .mk gpid _ _ _ _ children => gpid.isSome && ids_assigned_list children
/-- Check `ids_assigned_node` on every node of a list. -/
def ids_assigned_list : List MNode → Bool
  | [] => true
  | n :: rest => ids_assigned_node n && ids_assigned_list rest
end

/-- One entry of the merged flat org-chart list.  Catalog-derived entries and
imported internal entries carry different optional fields; `isInternal`
distinguishes them. -/
structure MergedNode where
  id : String
  pid : Option String
  name : Option String
  title : Option String
  type_from_catalog : Option String
  knowledge_points_count : Option Nat
  isInternal : Bool
deriving DecidableEq

/-- Rewriting of one internal node under the leaf with path id `cid`:
`id = cid ++ "__" ++ internalId`, and `pid` is the internal parent's
rewritten id when the internal `pid` is present and non-empty, else the
leaf's own path id. -/
def rewriteInternal (cid : String) (inode : INode) : MergedNode :=
  { id := cid ++ "__" ++ inode.id.getD "unknown_internal_id"
    pid := some (match inode.pid with
      | some s => if s = "" then cid else cid ++ "__" ++ s
      | none => cid)
    name := inode.name
    title := some (inode.title.getD "内部节点")
    type_from_catalog := none
    knowledge_points_count := none
    isInternal := true }

mutual
/-- Emission of `process_and_merge_recursive` for one catalog node: a node
without `generated_path_id` is skipped together with its whole subtree
(`continue`); otherwise the catalog entry is emitted, followed by the
rewritten internal nodes when the node is a leaf with an internal list,
followed by the children's emissions. -/
def merge_node (parent : String) : MNode → List MergedNode
  | .mk gpid name ntype kps internal children =>
    match gpid with
    | none => []
    | some cid =>
      { id := cid
        pid := some parent
        name := name
        title := some (if ntype = some "tree" then "章节" else "知识单元章节")
        type_from_catalog := ntype
        knowledge_points_count := some kps.length
        isInternal := false }
      :: ((match ntype, internal with
            | some "leaf", some ins => ins.map (rewriteInternal cid)
            | _, _ => [])
          ++ merge_list cid children)
/-- Emission of `process_and_merge_recursive` over a sibling list. -/
def merge_list (parent : String) : List MNode → List MergedNode
  | [] => []
  | n :: rest => merge_node parent n ++ merge_list parent rest
end

/-- `merge_all_orgchart_data` on a catalog with a `chapters` list: a synthetic
document root followed by the recursive emissions. -/
def merge_all_orgchart_data (chapters : List MNode) (book_root_title : String) :
    List MergedNode :=
  { id := "TEXTBOOK_ROOT"
    pid := none
    name := some book_root_title
    title := some "全书概览"
    type_from_catalog := none
    knowledge_points_count := none
    isInternal := false }
  :: merge_list "TEXTBOOK_ROOT" chapters

/-! ## Embedding of `src/search_similar.py` -/

/-- Python `str.lower()` (ASCII case folding via `Char.toLower`; locale-free
Unicode case mapping differences are not modelled). -/
def pyLower (s : String) : String := String.mk (s.data.map Char.toLower)

/-- One search result of `search_in_faiss_index`.  The distance type `D` is
abstract: distances are produced by the external FAISS collaborator and are
only passed through. -/
structure Hit (D : Type) where
  text : String
  distance : D
  id : Int
deriving DecidableEq

/-- Validity test applied to each `(distance, index)` pair returned by FAISS:
a `-1` index is skipped, and an index out of range of the id-to-text mapping
is dropped (with a warning in the source). -/
def valid_hit (mappingLen : Nat) (pr : D × Int) : Bool :=
  pr.2 != -1 && 0 ≤ pr.2 && pr.2 < (mappingLen : Int)

/-- Assemble the result record for a valid `(distance, index)` pair. -/
def mkHit (mapping : List String) (pr : D × Int) : Hit D :=
  { text := mapping.getD pr.2.toNat "", distance := pr.1, id := pr.2 }

/-- `search_in_faiss_index`.  The embedding step and the FAISS call are
external collaborators: `embedOk` stands for a successfully produced query
embedding, and `searchRes` for the `(distance, index)` rows FAISS returns for
`actual_top_k = min(top_k, ntotal)` neighbours.  Emitting a result for each
valid row in order is the same as filtering then mapping. -/
def search_in_faiss_index (query : String) (embedOk : Bool) (ntotal : Nat)
    (mapping : List String) (topK : Int) (searchRes : List (D × Int)) :
    List (Hit D) :=
  if pyStrip query = "" then []
  else if !embedOk then []
  else if min topK (ntotal : Int) ≤ 0 then []
  else (searchRes.filter (valid_hit mapping.length)).map (mkHit mapping)

/-- `find_similar_knowledge_points` after the index and mapping files have
been loaded (file-system and model-loading failures, which also return `[]`,
are external): an index with zero vectors returns an empty list without
searching. -/
def find_similar_knowledge_points (query : String) (embedOk : Bool)
    (ntotal : Nat) (mapping : List String) (topK : Int)
    (searchRes : List (D × Int)) : List (Hit D) :=
  if ntotal = 0 then []
  else search_in_faiss_index query embedOk ntotal mapping topK searchRes

/-! ## Embedding of the lexical RAG selection in `src/app.py` -/

/-- One candidate knowledge point collected for RAG. -/
structure KPItem where
  id : String
  text : String
  doc_name : String
  chapter_name : String
deriving DecidableEq

/-- The hardcoded stop-word set of `send_chat_message` (the literal contains
`"的"` twice; as in a Python set literal only membership matters). -/
def stop_words : List String :=
  ["的", "了", "是", "在", "我", "你", "他", "她", "它", "分析", "文件", "请", "如何", "什么",
   "这个", "那个", "根据", "文档", "回答", "问题", "并", "和", "或", "等", "以", "从", "中",
   "于", "对", "为", "所", "其", "则", "将", "与", "关于", "有", "也", "都", "还", "是什么",
   "的", "地", "得"]

/-- The content words of the query: jieba tokens of the lower-cased query of
length greater than 1 that are not stop words.  The Python set comprehension
is modelled as a first-occurrence deduplicated list; only membership and
cardinality of the set are ever used.  `tok` is the external jieba
tokenizer. -/
def query_words (tok : String → List String) (query : String) : List String :=
  dedupKeepFirst []
    ((tok (pyLower query)).filter
      (fun w => w.length > 1 && !stop_words.contains w))

/-- Lexical score of one candidate: the number of (distinct) query content
words present in the candidate's token set. -/
def kp_score (tok : String → List String) (query : String) (kp : KPItem) : Nat :=
  ((query_words tok query).filter
    (fun w => (tok (pyLower kp.text)).contains w)).length

/-- The scored candidate list: candidates with empty text are skipped and
only candidates with score greater than 0 participate, in input order. -/
def scored_chunks (tok : String → List String) (query : String)
    (kps : List KPItem) : List (Nat × KPItem) :=
  kps.filterMap (fun kp =>
    if kp.text = "" then none
    else if kp_score tok query kp > 0 then some (kp_score tok query kp, kp)
    else none)

/-- Insert an element into a descending-sorted list after every element of
greater-or-equal score, which is how a stable descending sort places it. -/
def insertDesc (x : Nat × KPItem) : List (Nat × KPItem) → List (Nat × KPItem)
  | [] => [x]
  | y :: ys => if y.1 ≥ x.1 then y :: insertDesc x ys else x :: y :: ys

/-- Python `list.sort(key=score, reverse=True)`: a stable sort by descending
score (Timsort is stable and `reverse=True` preserves the relative order of
equal elements). -/
def sortDesc (l : List (Nat × KPItem)) : List (Nat × KPItem) :=
  l.foldl (fun acc x => insertDesc x acc) []

/-- One context chunk handed to the LLM. -/
structure Chunk where
  id : String
  text : String
  original_doc_name : String
  chapter_name : String
deriving DecidableEq

/-- One citation record returned to the frontend. -/
structure Citation where
  id : String
  doc_name : String
  text : String
deriving DecidableEq

/-- Python `text[:50]`: the first 50 code points. -/
def pyTake (n : Nat) (s : String) : String := String.mk (s.data.take n)

/-- The deduplication key of a candidate: source document, section and text
prefix combined. -/
def dedupKey (kp : KPItem) : String :=
  kp.doc_name ++ "_" ++ kp.chapter_name ++ "_" ++ pyTake 50 kp.text

/-- The cap on selected context chunks (`MAX_CONTEXT_CHUNKS`). -/
def MAX_CONTEXT_CHUNKS : Nat := 8

/-- The selection loop of `send_chat_message`: walk the sorted scored list,
stop once the citation counter exceeds the cap, skip candidates whose
deduplication key was already seen, and give each kept candidate the next
sequential citation marker. -/
def select_chunks : List (Nat × KPItem) → Nat → List String →
    List Chunk × List Citation
  | [], _, _ => ([], [])
  | (_, kp) :: rest, counter, seen =>
    if counter > MAX_CONTEXT_CHUNKS then ([], [])
    else if seen.contains (dedupKey kp) then select_chunks rest counter seen
    else
      let tail := select_chunks rest (counter + 1) (dedupKey kp :: seen)
      ({ id := "[" ++ toString counter ++ "]"
         text := kp.text
         original_doc_name := kp.doc_name
         chapter_name := kp.chapter_name } :: tail.1,
       { id := toString counter
         doc_name := kp.doc_name
         text := kp.text } :: tail.2)

/-- The whole lexical RAG selection: score, stable-sort descending, select
with deduplication and the cap, counting citations from 1. -/
def rag_selection (tok : String → List String) (query : String)
    (kps : List KPItem) : List Chunk × List Citation :=
  select_chunks (sortDesc (scored_chunks tok query kps)) 1 []

/-- Fallback context when files were selected but no candidate is relevant. -/
def no_material_context : String :=
  "用户提问，但无法从选择的文件中找到与问题相关的参考资料。我将完全根据我已有的知识进行回答。如果您的原始问题是关于特定文档的，请确保文档内容中包含您的问题。请注意，我无法访问您本地的文件。"

/-- Context when no reference files were selected at all. -/
def no_files_context : String :=
  "用户提问，未选择任何参考资料。我将完全根据我已有的知识进行回答。\n\n"

/-- Leading sentence of a non-empty reference context. -/
def material_header : String :=
  "以下是一些用户选择的参考资料。请注意，你的回答必须完全基于这些资料，如果答案不在其中，请明确说明。\n\n"

/-- Trailing instruction of a non-empty reference context. -/
def material_footer : String :=
  "请根据上述提供的参考资料，准确、简洁地回答以下用户的问题。**在回答中，如果使用了参考资料，务必在相关内容后用方括号加数字的形式引用，例如：某个概念的定义[1]，某个论点[2]。** 如果参考资料中没有提及相关信息，请直接回答‘抱歉，根据我当前掌握的资料，无法从提供的参考资料中找到此问题的答案。’\n\n"

/-- Rendering of one chunk inside the context string. -/
def chunk_block (c : Chunk) : String :=
  "### 参考资料：文档 '" ++ c.original_doc_name ++ "'，片段 " ++ c.id ++
  "：来自章节 '" ++ c.chapter_name ++ "'\n```text\n" ++ c.text ++ "\n```\n\n"

/-- The context-string construction of `send_chat_message`: a populated
reference context when files were selected and chunks were found, the
explicit no-relevant-material message when files were selected but nothing
matched, and the no-files message otherwise. -/
def build_context (relatedFilesSelected : Bool) (chunks : List Chunk) : String :=
  if relatedFilesSelected && !chunks.isEmpty then
    material_header ++ String.join (chunks.map chunk_block) ++ material_footer
  else if relatedFilesSelected then no_material_context
  else no_files_context

/-- The deduplication key of an emitted chunk, reconstructed from the fields
it copied from its candidate (used to state key distinctness of the
selection). -/
def chunkKey (c : Chunk) : String :=
  c.original_doc_name ++ "_" ++ c.chapter_name ++ "_" ++ pyTake 50 c.text

/-! ## Embedding of `src/get_questions_orgchart.py` -/

/-- A flat org-chart node as consumed by `filter_textbook_orgchart`. -/
structure GNode where
  id : String
  pid : Option String
  name : Option String
deriving DecidableEq

/-- Python-dict insertion into an association list: overwrite in place when
the key exists, append otherwise (dicts keep first-insertion key order). -/
def dictInsert (m : List (String × GNode)) (k : String) (v : GNode) :
    List (String × GNode) :=
  match m with
  | [] => [(k, v)]
  | (k', v') :: rest =>
    if k' = k then (k', v) :: rest else (k', v') :: dictInsert rest k v

/-- The `node_map` dict: id to node, last write wins. -/
def node_map (nodes : List GNode) : List (String × GNode) :=
  nodes.foldl (fun m n => dictInsert m n.id n) []

/-- Dict lookup in an association list. -/
def dictGet? (m : List (String × GNode)) (k : String) : Option GNode :=
  (m.find? (fun p => p.1 == k)).map Prod.snd

/-- Root test on a `pid` value: `None`, the empty string, or (any casing of)
the literal string `"null"`. -/
def isRootPid : Option String → Bool
  | none => true
  | some s => s == "" || pyLower s == "null"

/-- `root_node_ids_found`: ids of all nodes whose `pid` marks a root, in
input order. -/
def root_ids (nodes : List GNode) : List String :=
  (nodes.filter (fun n => isRootPid n.pid)).map (fun n => n.id)

/-- The `parent_to_children_map` entry for parent id `p`: ids of the nodes
(with non-root `pid`) whose `pid` is `p`, in input order. -/
def adjOf (nodes : List GNode) (p : String) : List String :=
  ((nodes.filter (fun n => !isRootPid n.pid && n.pid == some p)).map
    (fun n => n.id))

/-- Ids of the nodes of `node_map` whose name is in the target set, in dict
iteration order (`initially_matched_ids_by_name`). -/
def matched_ids (nodes : List GNode) (targets : List String) : List String :=
  ((node_map nodes).filter (fun kv =>
    match kv.2.name with
    | some s => targets.contains s
    | none => false)).map (fun kv => kv.1)

/-- The initially kept set: all roots plus all name-matched nodes. -/
def kept0 (nodes : List GNode) (targets : List String) : Finset String :=
  (root_ids nodes).toFinset ∪ (matched_ids nodes targets).toFinset

/-- Inner loop of the descendant expansion: keep and enqueue each child that
is not already kept. -/
def bfsStep (kept : Finset String) (acc : List String) :
    List String → Finset String × List String
  | [] => (kept, acc)
  | c :: cs =>
    if c ∈ kept then bfsStep kept acc cs
    else bfsStep (insert c kept) (acc ++ [c]) cs

/-- The breadth-first descendant expansion of `filter_textbook_orgchart`
(step 3), with an explicit fuel parameter bounding the number of dequeue
iterations; the canonical fuel used by `kept_ids` is proved sufficient. -/
def bfs (nodes : List GNode) : Nat → List String → Finset String → Finset String
  | 0, _, kept => kept
  | _ + 1, [], kept => kept
  | fuel + 1, q :: rest, kept =>
    let st := bfsStep kept [] (adjOf nodes q)
    bfs nodes fuel (rest ++ st.2) st.1

/-- The upward ancestor walk of `filter_textbook_orgchart` (step 4) from one
node id, with fuel bounding the number of loop iterations: while the current
id is in the node map, look at its `pid`; stop at a root-marker `pid`, an
already-kept parent, or a parent absent from the node map; otherwise keep the
parent and continue from it. -/
def traceUp (nodes : List GNode) : Nat → Finset String → String → Finset String
  | 0, kept, _ => kept
  | fuel + 1, kept, current =>
    match dictGet? (node_map nodes) current with
    | none => kept
    | some v =>
      match v.pid with
      | none => kept
      | some p =>
        if p = "" then kept
        else if pyLower p = "null" then kept
        else if p ∈ kept then kept
        else if (dictGet? (node_map nodes) p).isSome then
          traceUp nodes fuel (insert p kept) p
        else kept

/-- Step 4 over an enumeration of the kept set: trace ancestors from each. -/
def step4 (nodes : List GNode) (fuel : Nat) (kEnum : List String)
    (kept : Finset String) : Finset String :=
  kEnum.foldl (traceUp nodes fuel) kept

/-- The set of kept node ids computed by `filter_textbook_orgchart`.
`mEnum` and `kEnum` model the iteration order of the Python sets
`initially_matched_ids_by_name` and `kept_node_ids` (set iteration order is
unspecified); the characterization theorem holds for every duplicate-free
enumeration.  The fuels are the canonical sufficient bounds. -/
def kept_ids (nodes : List GNode) (targets : List String)
    (mEnum kEnum : List String) : Finset String :=
  step4 nodes (nodes.length + 1) kEnum
    (bfs nodes (mEnum.length + nodes.length + 1) mEnum (kept0 nodes targets))

/-- The set kept after the descendant expansion (steps 1 to 3), with the
canonical fuel. -/
def kept3 (nodes : List GNode) (targets : List String)
    (mEnum : List String) : Finset String :=
  bfs nodes (mEnum.length + nodes.length + 1) mEnum (kept0 nodes targets)

/-- The set of ids of the input nodes. -/
def idsUniv (nodes : List GNode) : Finset String :=
  (nodes.map GNode.id).toFinset

/-- The set of keys of the node map. -/
def mapUniv (nodes : List GNode) : Finset String :=
  ((node_map nodes).map Prod.fst).toFinset

/-- The final output list (step 5): look up each id of the kept-set
enumeration in the node map. -/
def filtered_output (nodes : List GNode) (oEnum : List String) : List GNode :=
  oEnum.filterMap (fun i => dictGet? (node_map nodes) i)

/-- `e` is an iteration order of the finite set `s`: duplicate-free and with
exactly the elements of `s`. -/
def IsEnumOf (e : List String) (s : Finset String) : Prop :=
  e.Nodup ∧ e.toFinset = s

instance (e : List String) (s : Finset String) : Decidable (IsEnumOf e s) := by
  unfold IsEnumOf
  infer_instance

/-- One parent-link step as taken by the ancestor walk: from a node id
present in the node map, to its `pid` when that is a non-root marker and is
itself present in the node map. -/
def parentStep (nodes : List GNode) (x a : String) : Prop :=
  ∃ v, dictGet? (node_map nodes) x = some v ∧ v.pid = some a ∧ a ≠ "" ∧
    pyLower a ≠ "null" ∧ (dictGet? (node_map nodes) a).isSome

/-- One child step of the descendant expansion: `c` is an adjacency child of
`p`. -/
def childStep (nodes : List GNode) (p c : String) : Prop :=
  c ∈ adjOf nodes p

/-- The base set of the specification: roots, name matches, and descendants
of name matches. -/
def baseKeep (nodes : List GNode) (targets : List String) (i : String) : Prop :=
  i ∈ root_ids nodes ∨ i ∈ matched_ids nodes targets ∨
    ∃ m, m ∈ matched_ids nodes targets ∧
      Relation.ReflTransGen (childStep nodes) m i

/-- The specified kept set: the base set together with every ancestor (along
`parentStep` chains) of a base element. -/
def specKeep (nodes : List GNode) (targets : List String) (i : String) : Prop :=
  ∃ b, baseKeep nodes targets b ∧ Relation.ReflTransGen (parentStep nodes) b i

/-! ## Concrete inputs used by witnesses and counterexamples -/

/-- Demo catalog: the first leaf claims page 5 and actually starts at
`page0008.txt`, so the offset is 3. -/
def demoLeaf : CatNode :=
  .mk "第一节" (some "leaf") (some (.num 5)) (some (.num 13))
    (some "page0008.txt") none [] []

/-- Second leaf of the demo catalog. -/
def demoLeaf2 : CatNode :=
  .mk "第二节" (some "leaf") (some (.num 14)) (some (.num 26)) none none [] []

/-- Branch node of the demo catalog, declaring starting page 10. -/
def demoBranch : CatNode :=
  .mk "第一章" (some "tree") (some (.num 10)) (some (.num 26)) none none []
    [demoLeaf, demoLeaf2]

/-- The demo catalog's chapters list. -/
def demoChapters : List CatNode := [demoBranch]

/-- A catalog whose first leaf has a non-integer declared starting page. -/
def badLeaf : CatNode :=
  .mk "坏节" (some "leaf") (some (.other "五")) (some (.num 13))
    (some "page0008.txt") none [] []

/-- Chapters list around `badLeaf`. -/
def badChapters : List CatNode :=
  [.mk "章" (some "tree") (some (.num 10)) none none none [] [badLeaf]]

/-- A demo outline with two top-level chapters, the second having three
children; no node carries an explicit `index` field. -/
def demoOutline : List ONode :=
  [.mk "第一章" (some "leaf") none [],
   .mk "第二章" (some "tree") none
     [.mk "甲" (some "leaf") none [],
      .mk "乙" (some "leaf") none [],
      .mk "丙" (some "leaf") none []]]

/-- Internal org-chart node named `root`, as two different leaves might both
produce. -/
def demoINode1 : INode := ⟨some "root", none, some "概念甲", none⟩

/-- Internal org-chart node of the second demo leaf, also named `root`. -/
def demoINode2 : INode := ⟨some "root", none, some "概念乙", none⟩

/-- First demo leaf for the merge, with path id `"1"`. -/
def demoMergeLeaf1 : MNode :=
  .mk (some "1") (some "L1") (some "leaf") [] (some [demoINode1]) []

/-- Second demo leaf for the merge, with path id `"2"`. -/
def demoMergeLeaf2 : MNode :=
  .mk (some "2") (some "L2") (some "leaf") [] (some [demoINode2]) []

/-- Chapters list for the merge demo. -/
def demoMergeChapters : List MNode := [demoMergeLeaf1, demoMergeLeaf2]

/-- A trivial stand-in tokenizer for witnesses: the whole string is one
token.  The theorems about the RAG selection hold for every tokenizer. -/
def demoTok (s : String) : List String := [s]

/-- A candidate whose single token matches the demo query. -/
def demoKPmatch : KPItem := ⟨"k1", "物理定律", "doc.pdf", "第一章"⟩

/-- A candidate with no token overlap with any query. -/
def demoKPmiss : KPItem := ⟨"k2", "别的", "doc.pdf", "第一章"⟩

/-- The chain graph of the filter scenario: `R → A → B → C` with `D` a
sibling of `B` under `A`. -/
def chainNodes : List GNode :=
  [⟨"R", none, some "root"⟩,
   ⟨"A", some "R", some "alpha"⟩,
   ⟨"B", some "A", some "beta"⟩,
   ⟨"C", some "B", some "gamma"⟩,
   ⟨"D", some "A", some "delta"⟩]

/-- A graph with a `pid` cycle (`X ↔ Y`) and a dangling parent reference
(`Z`'s parent `GHOST` is absent from the list). -/
def cyclicNodes : List GNode :=
  [⟨"R", none, some "r"⟩,
   ⟨"X", some "Y", some "x"⟩,
   ⟨"Y", some "X", some "y"⟩,
   ⟨"Z", some "GHOST", some "z"⟩]

/-- Two nodes with the same matched name under one root, used to exhibit the
unspecified output order. -/
def twinNodes : List GNode :=
  [⟨"R", none, some "root"⟩,
   ⟨"A", some "R", some "t"⟩,
   ⟨"B", some "R", some "t"⟩]

/-! ## Theorems: deduplication (claim C7) -/

theorem dedupKeepFirst_mem (l : List String) :
    ∀ (seen : List String) (a : String),
      a ∈ dedupKeepFirst seen l ↔ a ∈ l ∧ a ∉ seen := by
  induction l with
  | nil => intro seen a; simp [dedupKeepFirst]
  | cons x xs ih =>
    intro seen a
    by_cases hx : x ∈ seen
    · rw [dedupKeepFirst, if_pos hx, ih]
      simp only [List.mem_cons]
      constructor
      · rintro ⟨ha, hs⟩; exact ⟨Or.inr ha, hs⟩
      · rintro ⟨ha | ha, hs⟩
        · exact absurd (ha ▸ hx) hs
        · exact ⟨ha, hs⟩
    · rw [dedupKeepFirst, if_neg hx]
      simp only [List.mem_cons, ih]
      constructor
      · rintro (rfl | ⟨ha, hs⟩)
        · exact ⟨Or.inl rfl, hx⟩
        · exact ⟨Or.inr ha, fun h => hs (Or.inr h)⟩
      · rintro ⟨rfl | ha, hs⟩
        · exact Or.inl rfl
        · by_cases hax : a = x
          · exact Or.inl hax
          · exact Or.inr ⟨ha, fun h => h.elim hax hs⟩

theorem dedupKeepFirst_sublist (l : List String) :
    ∀ seen : List String, (dedupKeepFirst seen l).Sublist l := by
  induction l with
  | nil => intro seen; simp [dedupKeepFirst]
  | cons x xs ih =>
    intro seen
    by_cases hx : x ∈ seen
    · simpa [dedupKeepFirst, if_pos hx] using (ih seen).cons x
    · simpa [dedupKeepFirst, if_neg hx] using (ih (x :: seen)).cons₂ x

theorem dedupKeepFirst_nodup (l : List String) :
    ∀ seen : List String, (dedupKeepFirst seen l).Nodup := by
  induction l with
  | nil => intro seen; simp [dedupKeepFirst]
  | cons x xs ih =>
    intro seen
    by_cases hx : x ∈ seen
    · simpa [dedupKeepFirst, if_pos hx] using ih seen
    · simp only [dedupKeepFirst, if_neg hx, List.nodup_cons]
      refine ⟨fun hmem => ?_, ih (x :: seen)⟩
      exact ((dedupKeepFirst_mem xs (x :: seen) x).mp hmem).2 (List.mem_cons_self x seen)

theorem dedupKeepFirst_congr (l : List String) :
    ∀ seen1 seen2 : List String, (∀ a, a ∈ seen1 ↔ a ∈ seen2) →
      dedupKeepFirst seen1 l = dedupKeepFirst seen2 l := by
  induction l with
  | nil => intro seen1 seen2 _; rfl
  | cons x xs ih =>
    intro seen1 seen2 h
    by_cases hx : x ∈ seen1
    · rw [dedupKeepFirst, if_pos hx, dedupKeepFirst, if_pos ((h x).mp hx)]
      exact ih seen1 seen2 h
    · rw [dedupKeepFirst, if_neg hx, dedupKeepFirst, if_neg (fun hc => hx ((h x).mpr hc))]
      refine congrArg (x :: ·) (ih _ _ fun a => ?_)
      simp [List.mem_cons, h a]

theorem dedupKeepFirst_seen_filter (l : List String) :
    ∀ (x : String) (seen : List String),
      dedupKeepFirst (x :: seen) l = dedupKeepFirst seen (l.filter (fun y => y != x)) := by
  induction l with
  | nil => intro x seen; rfl
  | cons y ys ih =>
    intro x seen
    by_cases hyx : y = x
    · subst hyx
      rw [dedupKeepFirst, if_pos (List.mem_cons_self y seen)]
      simp only [List.filter_cons, bne_self_eq_false, Bool.false_eq_true, if_neg]
      exact ih y seen
    · have hfil : (y :: ys).filter (fun z => z != x) = y :: ys.filter (fun z => z != x) := by
        simp [List.filter_cons, hyx]
      by_cases hy : y ∈ seen
      · rw [dedupKeepFirst, if_pos (List.mem_cons_of_mem _ hy), hfil, dedupKeepFirst,
          if_pos hy]
        exact ih x seen
      · have hyxs : y ∉ x :: seen := by simp [hyx, hy]
        rw [dedupKeepFirst, if_neg hyxs, hfil, dedupKeepFirst, if_neg hy]
        refine congrArg (y :: ·) ?_
        rw [dedupKeepFirst_congr ys (y :: x :: seen) (x :: y :: seen)
          (fun a => by simp [List.mem_cons]; tauto)]
        rw [ih x (y :: seen)]

/-- C7.  For every catalog, the persisted id-to-text mapping produced by
`extract_knowledge_points_from_json` has no duplicate entries, is a
subsequence of the collected knowledge-point texts (so the relative order of
any two retained inputs is preserved) with exactly the collected texts as
members, deduplication keeps the first occurrence of each duplicated text,
and the input `["x squared", "x squared", "y cubed"]` yields the mapping
`["x squared", "y cubed"]` with ids 0 and 1. -/
theorem C7_mapping_dedup_order :
    (∀ chapters : List CatNode,
      (extract_knowledge_points chapters).Nodup ∧
      (extract_knowledge_points chapters).Sublist (extract_kps_list chapters) ∧
      (∀ a, a ∈ extract_knowledge_points chapters ↔ a ∈ extract_kps_list chapters)) ∧
    (∀ (x : String) (xs : List String),
      dedupKeepFirst [] (x :: xs) = x :: dedupKeepFirst [] (xs.filter (fun y => y != x))) ∧
    (extract_knowledge_points
        [CatNode.mk "demo" (some "leaf") none none none none
          [.str "x squared", .str "x squared", .str "y cubed"] []]
      = ["x squared", "y cubed"] ∧
     (extract_knowledge_points
        [CatNode.mk "demo" (some "leaf") none none none none
          [.str "x squared", .str "x squared", .str "y cubed"] []]).get? 0
      = some "x squared" ∧
     (extract_knowledge_points
        [CatNode.mk "demo" (some "leaf") none none none none
          [.str "x squared", .str "x squared", .str "y cubed"] []]).get? 1
      = some "y cubed") := by
  refine ⟨fun chapters => ⟨?_, ?_, ?_⟩, fun x xs => ?_, by decide, by decide, by decide⟩
  · exact dedupKeepFirst_nodup _ []
  · exact dedupKeepFirst_sublist _ []
  · intro a
    rw [extract_knowledge_points, dedupKeepFirst_mem]
    simp
  · rw [dedupKeepFirst, if_neg (List.not_mem_nil x), dedupKeepFirst_seen_filter]

/-! ## Theorems: page-offset resolution (claims C1 and C2) -/

theorem apply_offset_list_eq_map (off : Int) (ns : List CatNode) :
    apply_offset_list off ns = ns.map (apply_offset_node off) := by
  induction ns with
  | nil => rfl
  | cons n rest ih => rw [apply_offset_list, ih, List.map_cons]

theorem apply_offset_node_starting (off : Int) (n : CatNode) :
    (apply_offset_node off n).starting_page = n.starting_page := by
  cases n; rfl

theorem apply_offset_node_ending (off : Int) (n : CatNode) :
    (apply_offset_node off n).ending_page = n.ending_page := by
  cases n; rfl

theorem apply_offset_node_actual_starting (off : Int) (n : CatNode) :
    (apply_offset_node off n).actual_starting_page =
      some (resolvePage n.starting_page off) := by
  cases n; rfl

theorem apply_offset_node_actual_ending (off : Int) (n : CatNode) :
    (apply_offset_node off n).actual_ending_page =
      some (resolvePage n.ending_page off) := by
  cases n; rfl

theorem apply_offset_node_children (off : Int) (n : CatNode) :
    (apply_offset_node off n).children = apply_offset_list off n.children := by
  cases n; rfl

theorem apply_offset_forest_mem (off : Int) (m : CatNode) :
    ∀ ns' : List CatNode, InCatForest m ns' →
      ∀ ns : List CatNode, ns' = apply_offset_list off ns →
        m.actual_starting_page = some (resolvePage m.starting_page off) ∧
        m.actual_ending_page = some (resolvePage m.ending_page off) := by
  intro ns' h
  induction h with
  | top hm =>
    intro ns hns
    subst hns
    rw [apply_offset_list_eq_map] at hm
    obtain ⟨n, _, rfl⟩ := List.mem_map.mp hm
    rw [apply_offset_node_actual_starting, apply_offset_node_actual_ending,
      apply_offset_node_starting, apply_offset_node_ending]
    exact ⟨rfl, rfl⟩
  | deeper mm hmm hsub ih =>
    intro ns hns
    subst hns
    rw [apply_offset_list_eq_map] at hmm
    obtain ⟨n, _, rfl⟩ := List.mem_map.mp hmm
    exact ih n.children (apply_offset_node_children off n)

mutual
theorem find_first_node_offset (off : Int) (n : CatNode) :
    find_first_leaf_node (apply_offset_node off n) =
      (find_first_leaf_node n).map (apply_offset_node off) := by
  cases n with
  | mk name ntype sp ep asp aep kps children =>
    by_cases hleaf : ntype = some "leaf"
    · simp only [apply_offset_node, find_first_leaf_node, if_pos hleaf,
        Option.map_some']
    · by_cases htree : ntype = some "tree"
      · simp only [apply_offset_node, find_first_leaf_node, if_neg hleaf,
          if_pos htree]
        exact find_first_list_offset off children
      · simp only [apply_offset_node, find_first_leaf_node, if_neg hleaf,
          if_neg htree, Option.map_none']
theorem find_first_list_offset (off : Int) (ns : List CatNode) :
    find_first_leaf_list (apply_offset_list off ns) =
      (find_first_leaf_list ns).map (apply_offset_node off) := by
  cases ns with
  | nil => rfl
  | cons n rest =>
    rw [apply_offset_list, find_first_leaf_list, find_first_leaf_list,
      find_first_node_offset off n]
    cases find_first_leaf_node n with
    | none => exact find_first_list_offset off rest
    | some l => rfl
end

/-- C1.  When the first leaf of the catalog has an integer declared starting
page `p` and its actual starting file name parses to physical page `a`, the
resolver applies the single offset `a - p` to the whole tree: every node of
the saved tree whose declared `starting_page` (resp. `ending_page`) is an
integer `q` gets the resolved file name of physical page `q + (a - p)`, and
the first leaf's resolved starting page is exactly the file name of page `a`
(applying the offset to `p` yields `a`). -/
theorem C1_offset_applied_uniformly (chapters : List CatNode) (fl : CatNode)
    (p : Int) (s : String) (a : Int)
    (hfind : find_first_leaf_list chapters = some fl)
    (hsp : fl.starting_page = some (.num p))
    (hasp : fl.actual_starting_page = some s)
    (hs : s ≠ "")
    (hparse : get_filename_number s = some a) :
    (apply_offset_and_save chapters).1 = some (a - p) ∧
    (apply_offset_and_save chapters).2 = apply_offset_list (a - p) chapters ∧
    (∀ m : CatNode, InCatForest m (apply_offset_list (a - p) chapters) →
      (∀ q : Int, m.starting_page = some (.num q) →
        m.actual_starting_page = some (format_filename (q + (a - p)))) ∧
      (∀ q : Int, m.ending_page = some (.num q) →
        m.actual_ending_page = some (format_filename (q + (a - p))))) ∧
    (find_first_leaf_list (apply_offset_list (a - p) chapters)).map
        CatNode.actual_starting_page = some (some (format_filename a)) := by
  have hres : apply_offset_and_save chapters =
      (some (a - p), apply_offset_list (a - p) chapters) := by
    simp only [apply_offset_and_save, hfind, hsp, hasp, if_neg hs, hparse]
  refine ⟨by rw [hres], by rw [hres], ?_, ?_⟩
  · intro m hm
    have h := apply_offset_forest_mem (a - p) m _ hm chapters rfl
    constructor
    · intro q hq
      rw [h.1, hq, resolvePage]
    · intro q hq
      rw [h.2, hq, resolvePage]
  · rw [find_first_list_offset, hfind]
    simp only [Option.map_some', apply_offset_node_actual_starting, hsp,
      resolvePage]
    have hpa : p + (a - p) = a := by omega
    rw [hpa]

/-- C1 witness: on the demo catalog (first leaf claims page 5, actual start
`page0008.txt`), the resolver computes offset 3, the branch declaring page 10
resolves to `page0013.txt`, and the first leaf resolves to `page0008.txt`. -/
theorem C1_offset_applied_uniformly_witness :
    (find_first_leaf_list demoChapters = some demoLeaf ∧
     demoLeaf.starting_page = some (.num 5) ∧
     demoLeaf.actual_starting_page = some "page0008.txt" ∧
     get_filename_number "page0008.txt" = some 8) ∧
    (apply_offset_and_save demoChapters).1 = some 3 ∧
    (apply_offset_and_save demoChapters).2 = apply_offset_list 3 demoChapters ∧
    (apply_offset_node 3 demoBranch).actual_starting_page = some "page0013.txt" ∧
    (find_first_leaf_list (apply_offset_list 3 demoChapters)).map
        CatNode.actual_starting_page = some (some "page0008.txt") := by
  have h := C1_offset_applied_uniformly demoChapters demoLeaf 5 "page0008.txt" 8
    rfl rfl rfl (by decide) (by decide)
  have h3 : (8 : Int) - 5 = 3 := by decide
  rw [h3] at h
  refine ⟨⟨rfl, rfl, rfl, by decide⟩, h.1, h.2.1, ?_, ?_⟩
  · have hb := (h.2.2.1 (apply_offset_node 3 demoBranch)
      (InCatForest.top (by rw [apply_offset_list_eq_map]; exact List.mem_map_of_mem _ (List.mem_singleton.mpr rfl)))).1
      10 (by decide)
    rw [hb]
    decide
  · have := h.2.2.2
    rwa [show format_filename 8 = "page0008.txt" from by decide] at this

/-- C2.  When the first leaf's declared starting page is not an integer, or
its actual starting file name is missing, empty, or unparseable, the resolver
applies no offset at all: the catalog is saved unchanged (so every node's
resolved pages stay unresolved) and in particular no silent offset 0 is
applied. -/
theorem C2_resolution_failure_no_offset (chapters : List CatNode) (fl : CatNode)
    (hfind : find_first_leaf_list chapters = some fl)
    (hbad : (∀ n : Int, fl.starting_page ≠ some (.num n)) ∨
      fl.actual_starting_page = none ∨ fl.actual_starting_page = some "" ∨
      (∃ s, fl.actual_starting_page = some s ∧ s ≠ "" ∧
        get_filename_number s = none)) :
    apply_offset_and_save chapters = (none, chapters) := by
  simp only [apply_offset_and_save, hfind]
  rcases hbad with hbad | hbad | hbad | ⟨s, hasp, hs, hparse⟩
  · cases hsp : fl.starting_page with
    | none => rfl
    | some pv =>
      cases pv with
      | num n => exact absurd hsp (hbad n)
      | other v => rfl
  · cases hsp : fl.starting_page with
    | none => rfl
    | some pv =>
      cases pv with
      | num n => simp only [hbad]
      | other v => rfl
  · cases hsp : fl.starting_page with
    | none => rfl
    | some pv =>
      cases pv with
      | num n => simp only [hbad, if_pos]
      | other v => rfl
  · cases hsp : fl.starting_page with
    | none => rfl
    | some pv =>
      cases pv with
      | num n => simp only [hasp, if_neg hs, hparse]
      | other v => rfl

/-- C2 witness: on a catalog whose first leaf declares the non-integer
starting page `"五"`, the resolver saves the data unchanged with no offset. -/
theorem C2_resolution_failure_no_offset_witness :
    find_first_leaf_list badChapters = some badLeaf ∧
    badLeaf.starting_page = some (.other "五") ∧
    apply_offset_and_save badChapters = (none, badChapters) := by
  refine ⟨rfl, rfl, ?_⟩
  exact C2_resolution_failure_no_offset badChapters badLeaf rfl
    (Or.inl (fun n h => by simp [badLeaf, CatNode.starting_page] at h))

/-! ## Theorems: decimal strings and dotted paths (infrastructure for C3) -/

theorem toDigitsCore_mem (b : Nat) (hb : 0 < b) :
    ∀ (f n : Nat) (ds : List Char) (c : Char),
      c ∈ Nat.toDigitsCore b f n ds → c ∈ ds ∨ ∃ k, k < b ∧ c = Nat.digitChar k := by
  intro f
  induction f with
  | zero => intro n ds c hc; exact Or.inl hc
  | succ f ih =>
    intro n ds c hc
    rw [Nat.toDigitsCore] at hc
    by_cases hdiv : n / b = 0
    · rw [if_pos hdiv] at hc
      rcases List.mem_cons.mp hc with hc | hc
      · exact Or.inr ⟨n % b, Nat.mod_lt n hb, hc⟩
      · exact Or.inl hc
    · rw [if_neg hdiv] at hc
      rcases ih (n / b) (Nat.digitChar (n % b) :: ds) c hc with hc | hc
      · rcases List.mem_cons.mp hc with hc | hc
        · exact Or.inr ⟨n % b, Nat.mod_lt n hb, hc⟩
        · exact Or.inl hc
      · exact Or.inr hc

theorem toDigitsCore_length_ge (b : Nat) :
    ∀ (f n : Nat) (ds : List Char),
      ds.length ≤ (Nat.toDigitsCore b f n ds).length := by
  intro f
  induction f with
  | zero => intro n ds; rw [Nat.toDigitsCore]
  | succ f ih =>
    intro n ds
    rw [Nat.toDigitsCore]
    by_cases hdiv : n / b = 0
    · rw [if_pos hdiv]; exact Nat.le_succ _
    · rw [if_neg hdiv]
      calc ds.length ≤ (Nat.digitChar (n % b) :: ds).length := Nat.le_succ _
        _ ≤ _ := ih (n / b) _

theorem natRepr_data (n : Nat) : (Nat.repr n).data = Nat.toDigits 10 n := rfl

theorem string_data_inj {s t : String} (h : s.data = t.data) : s = t :=
  congrArg String.mk h

theorem natRepr_ne_empty (n : Nat) : Nat.repr n ≠ "" := by
  intro h
  have hdata : (Nat.repr n).data = [] := by rw [h]
  rw [natRepr_data, Nat.toDigits] at hdata
  have hlen : (Nat.toDigitsCore 10 (n + 1) n []).length = 0 := by
    rw [hdata]; rfl
  rw [Nat.toDigitsCore] at hlen
  by_cases hdiv : n / 10 = 0
  · rw [if_pos hdiv] at hlen; exact Nat.succ_ne_zero _ hlen
  · rw [if_neg hdiv] at hlen
    have hge := toDigitsCore_length_ge 10 n (n / 10) [Nat.digitChar (n % 10)]
    rw [List.length_singleton] at hge
    omega

theorem digitChar_ne_dot (k : Nat) (hk : k < 10) : Nat.digitChar k ≠ '.' := by
  interval_cases k <;> decide

theorem natRepr_dot_free (n : Nat) : '.' ∉ (Nat.repr n).data := by
  intro hmem
  rw [natRepr_data, Nat.toDigits] at hmem
  rcases toDigitsCore_mem 10 (by decide) (n + 1) n [] '.' hmem with h | ⟨k, hk, h⟩
  · exact List.not_mem_nil _ h
  · exact digitChar_ne_dot k hk h.symm

theorem intToString_data (v : Int) :
    (toString v).data = match v with
      | .ofNat m => (Nat.repr m).data
      | .negSucc m => '-' :: (Nat.repr (m + 1)).data := by
  cases v with
  | ofNat m => rfl
  | negSucc m =>
    show ("-" ++ Nat.repr (m + 1)).data = _
    rw [String.data_append]
    rfl

theorem intToString_ne_empty (v : Int) : toString v ≠ "" := by
  intro h
  have hdata : (toString v).data = [] := by rw [h]
  rw [intToString_data] at hdata
  cases v with
  | ofNat m => exact natRepr_ne_empty m (string_data_inj hdata)
  | negSucc m => simp at hdata

theorem intToString_dot_free (v : Int) : '.' ∉ (toString v).data := by
  intro hmem
  rw [intToString_data] at hmem
  cases v with
  | ofNat m => exact natRepr_dot_free m hmem
  | negSucc m =>
    rcases List.mem_cons.mp hmem with h | h
    · exact absurd h.symm (by decide)
    · exact natRepr_dot_free (m + 1) h

theorem ordStr_ne_empty (i : Nat) (idx : Option Int) : ordStr i idx ≠ "" := by
  cases idx with
  | none =>
    show toString (i + 1) ≠ ""
    intro h
    exact natRepr_ne_empty (i + 1) h
  | some v => exact intToString_ne_empty v

theorem ordStr_dot_free (i : Nat) (idx : Option Int) : '.' ∉ (ordStr i idx).data := by
  cases idx with
  | none => exact natRepr_dot_free (i + 1)
  | some v => exact intToString_dot_free v

theorem dotSplit_inj :
    ∀ (a b r1 r2 : List Char), '.' ∉ a → '.' ∉ b →
      a ++ '.' :: r1 = b ++ '.' :: r2 → a = b ∧ r1 = r2 := by
  intro a
  induction a with
  | nil =>
    intro b r1 r2 _ hb heq
    cases b with
    | nil => simpa using heq
    | cons y bs =>
      simp only [List.nil_append, List.cons_append, List.cons.injEq] at heq
      exact absurd (heq.1 ▸ List.mem_cons_self y bs) hb
  | cons x as ih =>
    intro b r1 r2 ha hb heq
    cases b with
    | nil =>
      simp only [List.cons_append, List.nil_append, List.cons.injEq] at heq
      exact absurd (heq.1 ▸ List.mem_cons_self x as) ha
    | cons y bs =>
      simp only [List.cons_append, List.cons.injEq] at heq
      obtain ⟨rfl, heq⟩ := heq
      have hres := ih bs r1 r2 (fun h => ha (List.mem_cons_of_mem _ h))
        (fun h => hb (List.mem_cons_of_mem _ h)) heq
      exact ⟨by rw [hres.1], hres.2⟩

theorem dotfree_subtree_disjoint (x y : List Char) (hx : '.' ∉ x) (hy : '.' ∉ y)
    (hxy : x ≠ y) (e : List Char)
    (he1 : e = x ∨ ∃ r, e = x ++ '.' :: r)
    (he2 : e = y ∨ ∃ r, e = y ++ '.' :: r) : False := by
  rcases he1 with rfl | ⟨r1, rfl⟩
  · rcases he2 with h | ⟨r2, h⟩
    · exact hxy h
    · exact hx (h ▸ List.mem_append_right y (List.mem_cons_self _ _))
  · rcases he2 with h | ⟨r2, h⟩
    · exact hy (h ▸ List.mem_append_right x (List.mem_cons_self _ _))
    · exact hxy ((dotSplit_inj x y r1 r2 hx hy h).1)

/-! ## Theorems: path-id assignment (claim C3) -/

theorem string_ne_empty_of_data {s : String} (h : s.data ≠ []) : s ≠ "" :=
  fun he => h (by rw [he])

theorem assign_node_pathId (parent o : String) (n : ONode) :
    (assign_node parent o n).pathId = joinPath parent o := by
  cases n; rfl

theorem assign_node_index (parent o : String) (n : ONode) :
    (assign_node parent o n).index = n.index := by
  cases n; rfl

theorem assign_node_children (parent o : String) (n : ONode) :
    (assign_node parent o n).children =
      assign_list (joinPath parent o) 0 n.children := by
  cases n; rfl

theorem joinPath_data_ne (parent o : String) (h : parent ≠ "") :
    (joinPath parent o).data = parent.data ++ '.' :: o.data := by
  rw [joinPath, if_neg h, String.data_append, String.data_append]
  simp [List.append_assoc]

theorem joinPath_ne_empty (parent o : String) (ho : o ≠ "") :
    joinPath parent o ≠ "" := by
  by_cases hp : parent = ""
  · rw [joinPath, if_pos hp]; exact ho
  · refine string_ne_empty_of_data ?_
    rw [joinPath_data_ne parent o hp]
    simp

mutual
theorem path_ids_node_shape (n : ONode) :
    ∀ (parent o : String), o ≠ "" →
      ∀ id ∈ path_ids_node (assign_node parent o n),
        id = joinPath parent o ∨
          ∃ r, id.data = (joinPath parent o).data ++ '.' :: r := by
  cases n with
  | mk nm nt idx cs =>
    intro parent o ho id hid
    rw [assign_node, path_ids_node] at hid
    rcases List.mem_cons.mp hid with rfl | hid
    · exact Or.inl rfl
    · exact Or.inr (path_ids_list_shape cs (joinPath parent o) 0
        (joinPath_ne_empty parent o ho) id hid)
theorem path_ids_list_shape (ns : List ONode) :
    ∀ (parent : String) (i : Nat), parent ≠ "" →
      ∀ id ∈ path_ids_list (assign_list parent i ns),
        ∃ r, id.data = parent.data ++ '.' :: r := by
  cases ns with
  | nil => intro parent i _ id hid; rw [assign_list, path_ids_list] at hid; cases hid
  | cons n rest =>
    intro parent i hp id hid
    rw [assign_list, path_ids_list] at hid
    rcases List.mem_append.mp hid with hid | hid
    · rcases path_ids_node_shape n parent (ordStr i n.index)
        (ordStr_ne_empty i n.index) id hid with rfl | ⟨r, hr⟩
      · exact ⟨(ordStr i n.index).data, joinPath_data_ne parent _ hp⟩
      · refine ⟨(ordStr i n.index).data ++ '.' :: r, ?_⟩
        rw [hr, joinPath_data_ne parent _ hp, List.append_assoc, List.cons_append]
    · exact path_ids_list_shape rest parent (i + 1) hp id hid
end

theorem path_ids_list_sib (ns : List ONode) :
    ∀ (parent : String) (i : Nat),
      ∀ id ∈ path_ids_list (assign_list parent i ns),
        ∃ o, o ∈ ordsOfList i ns ∧
          (id = joinPath parent o ∨
            ∃ r, id.data = (joinPath parent o).data ++ '.' :: r) := by
  induction ns with
  | nil => intro parent i id hid; rw [assign_list, path_ids_list] at hid; cases hid
  | cons n rest ih =>
    intro parent i id hid
    rw [assign_list, path_ids_list] at hid
    rcases List.mem_append.mp hid with hid | hid
    · refine ⟨ordStr i n.index, ?_, ?_⟩
      · rw [ordsOfList]; exact List.mem_cons_self _ _
      · exact path_ids_node_shape n parent (ordStr i n.index)
          (ordStr_ne_empty i n.index) id hid
    · obtain ⟨o, ho, hform⟩ := ih parent (i + 1) id hid
      refine ⟨o, ?_, hform⟩
      rw [ordsOfList]; exact List.mem_cons_of_mem _ ho

theorem ordsOfList_spec (ns : List ONode) :
    ∀ (i : Nat), ∀ o ∈ ordsOfList i ns, o ≠ "" ∧ '.' ∉ o.data := by
  induction ns with
  | nil => intro i o ho; rw [ordsOfList] at ho; cases ho
  | cons n rest ih =>
    intro i o ho
    rw [ordsOfList] at ho
    rcases List.mem_cons.mp ho with rfl | ho
    · exact ⟨ordStr_ne_empty i n.index, ordStr_dot_free i n.index⟩
    · exact ih (i + 1) o ho

theorem sib_disjoint (parent o1 o2 : String) (h1 : o1 ≠ "") (h2 : o2 ≠ "")
    (hd1 : '.' ∉ o1.data) (hd2 : '.' ∉ o2.data) (hne : o1 ≠ o2) (id : String)
    (he1 : id = joinPath parent o1 ∨
      ∃ r, id.data = (joinPath parent o1).data ++ '.' :: r)
    (he2 : id = joinPath parent o2 ∨
      ∃ r, id.data = (joinPath parent o2).data ++ '.' :: r) : False := by
  have hdata_ne : o1.data ≠ o2.data := fun h => hne (string_data_inj h)
  by_cases hp : parent = ""
  · subst hp
    refine dotfree_subtree_disjoint o1.data o2.data hd1 hd2 hdata_ne id.data ?_ ?_
    · rcases he1 with rfl | ⟨r, hr⟩
      · exact Or.inl (by simp [joinPath])
      · exact Or.inr ⟨r, by rw [hr]; simp [joinPath]⟩
    · rcases he2 with rfl | ⟨r, hr⟩
      · exact Or.inl (by simp [joinPath])
      · exact Or.inr ⟨r, by rw [hr]; simp [joinPath]⟩
  · have hform : ∀ (o : String), (id = joinPath parent o ∨
        ∃ r, id.data = (joinPath parent o).data ++ '.' :: r) →
        ∃ e, id.data = parent.data ++ '.' :: e ∧
          (e = o.data ∨ ∃ r, e = o.data ++ '.' :: r) := by
      intro o ho
      rcases ho with rfl | ⟨r, hr⟩
      · exact ⟨o.data, joinPath_data_ne parent o hp, Or.inl rfl⟩
      · refine ⟨o.data ++ '.' :: r, ?_, Or.inr ⟨r, rfl⟩⟩
        rw [hr, joinPath_data_ne parent o hp, List.append_assoc, List.cons_append]
    obtain ⟨e1, hid1, hform1⟩ := hform o1 he1
    obtain ⟨e2, hid2, hform2⟩ := hform o2 he2
    have : e1 = e2 := by
      have h12 : parent.data ++ '.' :: e1 = parent.data ++ '.' :: e2 :=
        hid1 ▸ hid2
      exact List.cons_injective.eq_iff.mp (List.append_cancel_left h12)
    subst this
    exact dotfree_subtree_disjoint o1.data o2.data hd1 hd2 hdata_ne e1 hform1 hform2

mutual
theorem path_ids_node_nodup (n : ONode) :
    ∀ (parent o : String), o ≠ "" → good_node n = true →
      (path_ids_node (assign_node parent o n)).Nodup := by
  cases n with
  | mk nm nt idx cs =>
    intro parent o ho hg
    rw [good_node, Bool.and_eq_true] at hg
    rw [assign_node, path_ids_node, List.nodup_cons]
    constructor
    · intro hmem
      obtain ⟨r, hr⟩ := path_ids_list_shape cs (joinPath parent o) 0
        (joinPath_ne_empty parent o ho) _ hmem
      have := congrArg List.length hr
      simp at this
    · exact path_ids_list_nodup cs (joinPath parent o) 0 hg.1 hg.2
theorem path_ids_list_nodup (ns : List ONode) :
    ∀ (parent : String) (i : Nat),
      allDiff (ordsOfList i ns) = true → good_nodes ns = true →
      (path_ids_list (assign_list parent i ns)).Nodup := by
  cases ns with
  | nil => intro parent i _ _; rw [assign_list, path_ids_list]; exact List.nodup_nil
  | cons n rest =>
    intro parent i hall hg
    rw [good_nodes, Bool.and_eq_true] at hg
    rw [ordsOfList, allDiff, Bool.and_eq_true] at hall
    have hnotmem : ordStr i n.index ∉ ordsOfList (i + 1) rest := by
      simpa using hall.1
    rw [assign_list, path_ids_list]
    refine List.Nodup.append
      (path_ids_node_nodup n parent (ordStr i n.index)
        (ordStr_ne_empty i n.index) hg.1)
      (path_ids_list_nodup rest parent (i + 1) hall.2 hg.2) ?_
    intro id hid1 hid2
    have hform1 := path_ids_node_shape n parent (ordStr i n.index)
      (ordStr_ne_empty i n.index) id hid1
    obtain ⟨o2, ho2, hform2⟩ := path_ids_list_sib rest parent (i + 1) id hid2
    obtain ⟨ho2ne, ho2df⟩ := ordsOfList_spec rest (i + 1) o2 ho2
    exact sib_disjoint parent (ordStr i n.index) o2
      (ordStr_ne_empty i n.index) ho2ne (ordStr_dot_free i n.index) ho2df
      (fun h => hnotmem (h ▸ ho2)) id hform1 hform2
end

theorem assign_list_pathId_at (ns : List ONode) :
    ∀ (parent : String) (i j : Nat),
      ((assign_list parent i ns)[j]?).map PNode.pathId =
        ((assign_list parent i ns)[j]?).map
          (fun c => joinPath parent (ordStr (i + j) c.index)) := by
  induction ns with
  | nil => intro parent i j; rw [assign_list]; simp
  | cons n rest ih =>
    intro parent i j
    rw [assign_list]
    cases j with
    | zero =>
      simp only [List.getElem?_cons_zero, Option.map_some']
      rw [assign_node_pathId, assign_node_index, Nat.add_zero]
    | succ j =>
      simp only [List.getElem?_cons_succ]
      have := ih parent (i + 1) j
      rw [this]
      have harith : i + 1 + j = i + (j + 1) := by omega
      rw [harith]

theorem InPForest_assigned (m : PNode) (ns' : List PNode) (h : InPForest m ns') :
    ∀ (parent : String) (i : Nat) (ns : List ONode),
      ns' = assign_list parent i ns →
      ∃ (P : String) (k : Nat) (n : ONode), m = assign_node P (ordStr k n.index) n := by
  induction h with
  | top hm =>
    intro parent i ns hns
    subst hns
    clear * - hm
    induction ns generalizing i with
    | nil => rw [assign_list] at hm; cases hm
    | cons n rest ih =>
      rw [assign_list] at hm
      rcases List.mem_cons.mp hm with rfl | hm
      · exact ⟨parent, i, n, rfl⟩
      · exact ih (i + 1) hm
  | deeper mm hmm hsub ih =>
    intro parent i ns hns
    subst hns
    have hchar : ∃ (P : String) (k : Nat) (n : ONode),
        mm = assign_node P (ordStr k n.index) n := by
      clear * - hmm
      induction ns generalizing i with
      | nil => rw [assign_list] at hmm; cases hmm
      | cons n rest ih2 =>
        rw [assign_list] at hmm
        rcases List.mem_cons.mp hmm with rfl | hmm
        · exact ⟨parent, i, n, rfl⟩
        · exact ih2 (i + 1) hmm
    obtain ⟨P, k, n, rfl⟩ := hchar
    exact ih (joinPath P (ordStr k n.index)) 0 n.children
      (assign_node_children P _ n)

/-- C3 counterexample to uniqueness as claimed: two sibling nodes whose
explicit `index` fields are both 1 receive the same path id `"1"`, so the
path ids of the tree are not unique. -/
theorem C3_counterexample_duplicate_index :
    path_ids_list (assign_list "" 0
        [.mk "a" (some "leaf") (some 1) [], .mk "b" (some "leaf") (some 1) []])
      = ["1", "1"] ∧
    ¬ (path_ids_list (assign_list "" 0
        [.mk "a" (some "leaf") (some 1) [], .mk "b" (some "leaf") (some 1) []])).Nodup := by
  constructor
  · decide
  · intro h
    rw [show path_ids_list (assign_list "" 0
        [ONode.mk "a" (some "leaf") (some 1) [], ONode.mk "b" (some "leaf") (some 1) []])
      = ["1", "1"] from by decide] at h
    simp at h

/-- C3 (amended).  In the builder's single depth-first traversal, the node at
sibling position `j` under parent path `parent` receives path id
`parent + "." + ordinal` (plain `ordinal` at top level), where the ordinal is
the node's explicit `index` field if present and its 1-based position
otherwise; every deep member's children follow the same rule.  Provided the
sibling ordinals are pairwise distinct within every sibling group — which
always holds when no node has an explicit `index` field, but can fail with
duplicate explicit indices — all path ids of the tree are unique; and the
third child of the second top-level node receives path id `"2.3"`. -/
theorem C3_pathids_structure_and_uniqueness :
    (∀ (ns : List ONode) (parent : String) (i j : Nat),
      ((assign_list parent i ns)[j]?).map PNode.pathId =
        ((assign_list parent i ns)[j]?).map
          (fun c => joinPath parent (ordStr (i + j) c.index))) ∧
    (∀ (m : PNode) (ns : List ONode), InPForest m (assign_list "" 0 ns) →
      ∀ j : Nat,
        ((m.children[j]?).map PNode.pathId) =
          ((m.children[j]?).map (fun c => m.pathId ++ "." ++ ordStr j c.index))) ∧
    (∀ ns : List ONode, good_forest ns = true →
      (path_ids_list (assign_list "" 0 ns)).Nodup) ∧
    path_ids_list (assign_list "" 0 demoOutline) = ["1", "2", "2.1", "2.2", "2.3"] := by
  refine ⟨fun ns parent i j => assign_list_pathId_at ns parent i j, ?_, ?_, by decide⟩
  · intro m ns hm j
    obtain ⟨P, k, n, rfl⟩ := InPForest_assigned m _ hm "" 0 ns rfl
    rw [assign_node_children, assign_list_pathId_at n.children
      (joinPath P (ordStr k n.index)) 0 j, assign_node_pathId]
    have hne : joinPath P (ordStr k n.index) ≠ "" :=
      joinPath_ne_empty P _ (ordStr_ne_empty k n.index)
    cases hc : (assign_list (joinPath P (ordStr k n.index)) 0 n.children)[j]? with
    | none => rfl
    | some c =>
      simp only [Option.map_some']
      rw [Nat.zero_add, joinPath, if_neg hne]
  · intro ns hg
    rw [good_forest, Bool.and_eq_true] at hg
    exact path_ids_list_nodup ns "" 0 hg.1 hg.2

/-- C3 witness: the demo outline has pairwise distinct sibling ordinals
(no explicit `index` fields), and the amended uniqueness theorem applies to
it, giving duplicate-free path ids. -/
theorem C3_pathids_witness :
    good_forest demoOutline = true ∧
    (path_ids_list (assign_list "" 0 demoOutline)).Nodup :=
  ⟨by decide, C3_pathids_structure_and_uniqueness.2.2.1 demoOutline (by decide)⟩

/-! ## Theorems: org-chart merging (claim C4) -/

theorem string_append_cancel_right {a b c : String} (h : a ++ c = b ++ c) :
    a = b := by
  apply string_data_inj
  have hd : a.data ++ c.data = b.data ++ c.data := by
    rw [← String.data_append, ← String.data_append, h]
  exact List.append_cancel_right hd

theorem ids_assigned_node_parts {m : MNode}
    (h : ids_assigned_node m = true) :
    m.generated_path_id.isSome ∧ ids_assigned_list m.children = true := by
  cases m with
  | mk gpid name ntype kps internal children =>
    rw [ids_assigned_node, Bool.and_eq_true] at h
    exact h

theorem ids_assigned_list_mem {ns : List MNode} {m : MNode}
    (h : ids_assigned_list ns = true) (hm : m ∈ ns) :
    ids_assigned_node m = true := by
  induction ns with
  | nil => cases hm
  | cons n rest ih =>
    rw [ids_assigned_list, Bool.and_eq_true] at h
    rcases List.mem_cons.mp hm with rfl | hm
    · exact h.1
    · exact ih h.2 hm

theorem merge_list_mem_of_node (ns : List MNode) (parent : String)
    (m : MNode) (x : MergedNode) (hm : m ∈ ns)
    (hx : x ∈ merge_node parent m) : x ∈ merge_list parent ns := by
  induction ns with
  | nil => cases hm
  | cons n rest ih =>
    rw [merge_list]
    rcases List.mem_cons.mp hm with rfl | hm
    · exact List.mem_append_left _ hx
    · exact List.mem_append_right _ (ih hm)

theorem merge_node_internal_mem (parent : String) (n : MNode) (cid : String)
    (ins : List INode) (inode : INode)
    (hgp : n.generated_path_id = some cid) (hleaf : n.ntype = some "leaf")
    (hint : n.internal = some ins) (hin : inode ∈ ins) :
    rewriteInternal cid inode ∈ merge_node parent n := by
  cases n with
  | mk gpid name ntype kps internal children =>
    rw [MNode.generated_path_id] at hgp
    rw [MNode.ntype] at hleaf
    rw [MNode.internal] at hint
    subst hgp; subst hleaf; subst hint
    rw [merge_node]
    refine List.mem_cons_of_mem _ (List.mem_append_left _ ?_)
    exact List.mem_map_of_mem _ hin

theorem merge_node_eq (parent cid : String) (name : Option String)
    (ntype : Option String) (kps : List String)
    (internal : Option (List INode)) (children : List MNode) :
    merge_node parent (.mk (some cid) name ntype kps internal children) =
      { id := cid
        pid := some parent
        name := name
        title := some (if ntype = some "tree" then "章节" else "知识单元章节")
        type_from_catalog := ntype
        knowledge_points_count := some kps.length
        isInternal := false }
      :: ((match ntype, internal with
            | some "leaf", some ins => ins.map (rewriteInternal cid)
            | _, _ => [])
          ++ merge_list cid children) := rfl

theorem merge_node_sup_children (parent : String) (n : MNode) (cid : String)
    (x : MergedNode) (hgp : n.generated_path_id = some cid)
    (hx : x ∈ merge_list cid n.children) : x ∈ merge_node parent n := by
  cases n with
  | mk gpid name ntype kps internal children =>
    rw [MNode.generated_path_id] at hgp
    rw [MNode.children] at hx
    subst hgp
    rw [merge_node_eq]
    exact List.mem_cons_of_mem _ (List.mem_append_right _ hx)

theorem merge_list_internal_mem (L : MNode) (chapters : List MNode)
    (h : InMForest L chapters) :
    ∀ (parent cid : String) (ins : List INode) (inode : INode),
      ids_assigned_list chapters = true →
      L.generated_path_id = some cid → L.ntype = some "leaf" →
      L.internal = some ins → inode ∈ ins →
      rewriteInternal cid inode ∈ merge_list parent chapters := by
  induction h with
  | top hm =>
    intro parent cid ins inode _ hgp hleaf hint hin
    exact merge_list_mem_of_node _ parent _ _ hm
      (merge_node_internal_mem parent _ cid ins inode hgp hleaf hint hin)
  | deeper mm hmm hsub ih =>
    intro parent cid ins inode hids hgp hleaf hint hin
    have hmm_assigned := ids_assigned_list_mem hids hmm
    obtain ⟨hgp_mm, hch_mm⟩ := ids_assigned_node_parts hmm_assigned
    obtain ⟨cid', hcid'⟩ := Option.isSome_iff_exists.mp hgp_mm
    have hx := ih cid' cid ins inode hch_mm hgp hleaf hint hin
    exact merge_list_mem_of_node _ parent _ _ hmm
      (merge_node_sup_children parent mm cid' _ hcid' hx)

/-- C4.  Every internal node imported from a Leaf's per-leaf sub-structure is
emitted in the merged flat list with `id = leafPathId ++ "__" ++ internalId`;
its `parentId` is the internal parent's rewritten id when the internal node
has a (present, non-empty) parent, else the Leaf's own path id; rewritten ids
under distinct leaf path ids never collide even for identical internal ids;
and on the two-leaf demo whose internal structures both contain the id
`"root"`, the merged list contains the two distinct ids `"1__root"` and
`"2__root"`, parented under `"1"` and `"2"` respectively. -/
theorem C4_merge_internal_namespacing :
    (∀ (chapters : List MNode) (title : String) (L : MNode) (cid : String)
        (ins : List INode) (inode : INode),
      ids_assigned_list chapters = true → InMForest L chapters →
      L.generated_path_id = some cid → L.ntype = some "leaf" →
      L.internal = some ins → inode ∈ ins →
      rewriteInternal cid inode ∈ merge_all_orgchart_data chapters title) ∧
    (∀ (cid : String) (inode : INode),
      (rewriteInternal cid inode).id =
        cid ++ "__" ++ inode.id.getD "unknown_internal_id" ∧
      (∀ s : String, inode.pid = some s → s ≠ "" →
        (rewriteInternal cid inode).pid = some (cid ++ "__" ++ s)) ∧
      (inode.pid = none ∨ inode.pid = some "" →
        (rewriteInternal cid inode).pid = some cid)) ∧
    (∀ (cid1 cid2 w : String) (i1 i2 : INode), cid1 ≠ cid2 →
      i1.id.getD "unknown_internal_id" = w → i2.id.getD "unknown_internal_id" = w →
      (rewriteInternal cid1 i1).id ≠ (rewriteInternal cid2 i2).id) ∧
    ((merge_all_orgchart_data demoMergeChapters "book").map
        (fun m => m.id) = ["TEXTBOOK_ROOT", "1", "1__root", "2", "2__root"] ∧
      rewriteInternal "1" demoINode1 ∈
        merge_all_orgchart_data demoMergeChapters "book" ∧
      (rewriteInternal "1" demoINode1).pid = some "1" ∧
      (rewriteInternal "2" demoINode2).pid = some "2" ∧
      (rewriteInternal "1" demoINode1).id ≠ (rewriteInternal "2" demoINode2).id) := by
  refine ⟨?_, ?_, ?_, by decide⟩
  · intro chapters title L cid ins inode hids hL hgp hleaf hint hin
    rw [merge_all_orgchart_data]
    exact List.mem_cons_of_mem _
      (merge_list_internal_mem L chapters hL "TEXTBOOK_ROOT" cid ins inode
        hids hgp hleaf hint hin)
  · intro cid inode
    refine ⟨rfl, ?_, ?_⟩
    · intro s hs hne
      rw [rewriteInternal, hs]
      simp [hne]
    · intro h
      rcases h with h | h <;> rw [rewriteInternal, h] <;> simp
  · intro cid1 cid2 w i1 i2 hne h1 h2 heq
    rw [rewriteInternal, rewriteInternal] at heq
    simp only at heq
    rw [h1, h2] at heq
    have : cid1 ++ "__" = cid2 ++ "__" := string_append_cancel_right heq
    exact hne (string_append_cancel_right this)

/-- C4 witness: on the two-leaf demo catalog the hypotheses of the general
emission statement hold and the rewritten internal node of the first leaf is
in the merged output. -/
theorem C4_merge_internal_namespacing_witness :
    ids_assigned_list demoMergeChapters = true ∧
    demoMergeLeaf1.generated_path_id = some "1" ∧
    demoMergeLeaf1.ntype = some "leaf" ∧
    demoMergeLeaf1.internal = some [demoINode1] ∧
    rewriteInternal "1" demoINode1 ∈
      merge_all_orgchart_data demoMergeChapters "book" :=
  ⟨by decide, rfl, rfl, rfl,
    C4_merge_internal_namespacing.1 demoMergeChapters "book" demoMergeLeaf1 "1"
      [demoINode1] demoINode1 (by decide)
      (InMForest.top (List.mem_cons_self demoMergeLeaf1 [demoMergeLeaf2]))
      rfl rfl rfl (List.mem_cons_self demoINode1 [])⟩

/-! ## Theorems: FAISS search post-processing (claim C6) -/

theorem search_in_faiss_main {D : Type} (query : String) (embedOk : Bool)
    (ntotal : Nat) (mapping : List String) (topK : Int)
    (searchRes : List (D × Int))
    (hq : pyStrip query ≠ "") (he : embedOk = true)
    (hk : 0 < min topK (ntotal : Int)) :
    search_in_faiss_index query embedOk ntotal mapping topK searchRes =
      (searchRes.filter (valid_hit mapping.length)).map (mkHit mapping) := by
  rw [search_in_faiss_index, if_neg hq, he]
  simp only [Bool.not_true, Bool.false_eq_true, if_false]
  rw [if_neg (by omega)]

theorem valid_hit_spec {D : Type} (mappingLen : Nat) (pr : D × Int)
    (h : valid_hit mappingLen pr = true) :
    0 ≤ pr.2 ∧ pr.2 < (mappingLen : Int) := by
  rw [valid_hit, Bool.and_eq_true, Bool.and_eq_true] at h
  exact ⟨of_decide_eq_true h.1.2, of_decide_eq_true h.2⟩

/-- C6.  The search post-processing returns results ordered ascending by
distance whenever the FAISS rows are so ordered; it never returns more rows
than FAISS produced for `actual_top_k = min(top_k, ntotal)` (requesting more
neighbours than exist silently returns fewer); searching an index with zero
vectors returns an empty list, both in `search_in_faiss_index` and in
`find_similar_knowledge_points`; and every returned hit's id is a valid
0-based position of the id-to-text mapping with exactly that mapped text
(rows with out-of-range or `-1` ids are dropped, never surfaced). -/
theorem C6_search_clamped_ordered_validated {D : Type} [LinearOrder D] :
    (∀ (query : String) (embedOk : Bool) (ntotal : Nat) (mapping : List String)
        (topK : Int) (searchRes : List (D × Int)),
      searchRes.Pairwise (fun u v => u.1 ≤ v.1) →
      (search_in_faiss_index query embedOk ntotal mapping topK
          searchRes).Pairwise (fun h1 h2 => h1.distance ≤ h2.distance)) ∧
    (∀ (query : String) (embedOk : Bool) (ntotal : Nat) (mapping : List String)
        (topK : Int) (searchRes : List (D × Int)),
      ∀ hit ∈ search_in_faiss_index query embedOk ntotal mapping topK searchRes,
        0 ≤ hit.id ∧ hit.id < (mapping.length : Int) ∧
          mapping[hit.id.toNat]? = some hit.text) ∧
    (∀ (query : String) (embedOk : Bool) (ntotal : Nat) (mapping : List String)
        (topK : Int) (searchRes : List (D × Int)),
      (search_in_faiss_index query embedOk ntotal mapping topK
        searchRes).length ≤ searchRes.length) ∧
    (∀ (query : String) (embedOk : Bool) (mapping : List String) (topK : Int)
        (searchRes : List (D × Int)),
      search_in_faiss_index query embedOk 0 mapping topK searchRes = [] ∧
      find_similar_knowledge_points query embedOk 0 mapping topK searchRes = []) := by
  have hcases : ∀ (query : String) (embedOk : Bool) (ntotal : Nat)
      (mapping : List String) (topK : Int) (searchRes : List (D × Int)),
      search_in_faiss_index query embedOk ntotal mapping topK searchRes = [] ∨
      search_in_faiss_index query embedOk ntotal mapping topK searchRes =
        (searchRes.filter (valid_hit mapping.length)).map (mkHit mapping) := by
    intro query embedOk ntotal mapping topK searchRes
    rw [search_in_faiss_index]
    split_ifs with h1 h2 h3
    · exact Or.inl rfl
    · exact Or.inl rfl
    · exact Or.inl rfl
    · exact Or.inr rfl
  refine ⟨?_, ?_, ?_, ?_⟩
  · intro query embedOk ntotal mapping topK searchRes hsorted
    rcases hcases query embedOk ntotal mapping topK searchRes with h | h
    · rw [h]; exact List.Pairwise.nil
    · rw [h]
      rw [List.pairwise_map]
      exact (hsorted.filter _).imp (fun hle => hle)
  · intro query embedOk ntotal mapping topK searchRes hit hmem
    rcases hcases query embedOk ntotal mapping topK searchRes with h | h
    · rw [h] at hmem; cases hmem
    · rw [h] at hmem
      obtain ⟨pr, hpr, rfl⟩ := List.mem_map.mp hmem
      obtain ⟨hprmem, hvalid⟩ := List.mem_filter.mp hpr
      obtain ⟨h0, hlt⟩ := valid_hit_spec mapping.length pr hvalid
      have hnat : pr.2.toNat < mapping.length := by omega
      refine ⟨h0, hlt, ?_⟩
      rw [mkHit]
      simp only
      rw [List.getElem?_eq_getElem hnat]
      rw [List.getD_eq_getElem?_getD, List.getElem?_eq_getElem hnat]
      rfl
  · intro query embedOk ntotal mapping topK searchRes
    rcases hcases query embedOk ntotal mapping topK searchRes with h | h
    · rw [h]; exact Nat.zero_le _
    · rw [h, List.length_map]
      exact List.length_filter_le _ _
  · intro query embedOk mapping topK searchRes
    constructor
    · rw [search_in_faiss_index]
      split_ifs with h1 h2 h3
      · rfl
      · rfl
      · rfl
      · exfalso
        apply h3
        calc min topK ((0 : Nat) : Int) ≤ ((0 : Nat) : Int) := min_le_right _ _
          _ ≤ 0 := by norm_num
    · rw [find_similar_knowledge_points, if_pos rfl]

/-- C6 witness: a concrete search over a two-entry mapping with `top_k = 5`
clamped to 2 FAISS rows, one of which carries the out-of-range id 5 and is
dropped; the remaining hit is valid, and the zero-vector search returns an
empty list. -/
theorem C6_search_clamped_ordered_validated_witness :
    ([((1 : Int), (0 : Int)), (3, 5)].Pairwise
      (fun u v : Int × Int => u.1 ≤ v.1)) ∧
    search_in_faiss_index "q" true 2 ["alpha", "beta"] 5
      [((1 : Int), (0 : Int)), (3, 5)] = [⟨"alpha", 1, 0⟩] ∧
    (search_in_faiss_index "q" true 2 ["alpha", "beta"] 5
      [((1 : Int), (0 : Int)), (3, 5)]).Pairwise
        (fun h1 h2 => h1.distance ≤ h2.distance) ∧
    (∀ hit ∈ search_in_faiss_index "q" true 2 ["alpha", "beta"] 5
        [((1 : Int), (0 : Int)), (3, 5)],
      0 ≤ hit.id ∧ hit.id < ((["alpha", "beta"] : List String).length : Int) ∧
        ["alpha", "beta"][hit.id.toNat]? = some hit.text) ∧
    find_similar_knowledge_points "q" true 0 ["alpha", "beta"] 5
      ([] : List (Int × Int)) = [] :=
  ⟨by decide, by decide,
    C6_search_clamped_ordered_validated.1 "q" true 2 ["alpha", "beta"] 5
      [((1 : Int), (0 : Int)), (3, 5)] (by decide),
    C6_search_clamped_ordered_validated.2.1 "q" true 2 ["alpha", "beta"] 5
      [((1 : Int), (0 : Int)), (3, 5)],
    (C6_search_clamped_ordered_validated.2.2.2 "q" true ["alpha", "beta"] 5
      ([] : List (Int × Int))).2⟩

/-! ## Theorems: lexical RAG selection (claim C8) -/

theorem insertDesc_perm (x : Nat × KPItem) (l : List (Nat × KPItem)) :
    List.Perm (insertDesc x l) (x :: l) := by
  induction l with
  | nil => exact List.Perm.refl _
  | cons y ys ih =>
    rw [insertDesc]
    by_cases h : y.1 ≥ x.1
    · rw [if_pos h]
      exact ((ih.cons y).trans (List.Perm.swap x y ys))
    · rw [if_neg h]

theorem insertDesc_sorted (x : Nat × KPItem) (l : List (Nat × KPItem))
    (h : l.Pairwise (fun a b => b.1 ≤ a.1)) :
    (insertDesc x l).Pairwise (fun a b => b.1 ≤ a.1) := by
  induction l with
  | nil => simp [insertDesc]
  | cons y ys ih =>
    rw [List.pairwise_cons] at h
    rw [insertDesc]
    by_cases hge : y.1 ≥ x.1
    · rw [if_pos hge, List.pairwise_cons]
      refine ⟨?_, ih h.2⟩
      intro z hz
      rcases List.mem_cons.mp ((insertDesc_perm x ys).mem_iff.mp hz) with rfl | hz
      · exact hge
      · exact h.1 z hz
    · rw [if_neg hge, List.pairwise_cons]
      refine ⟨?_, List.pairwise_cons.mpr h⟩
      intro z hz
      rcases List.mem_cons.mp hz with rfl | hz
      · omega
      · have := h.1 z hz
        omega

theorem insertDesc_filter (x : Nat × KPItem) (s : Nat) :
    ∀ l : List (Nat × KPItem), l.Pairwise (fun a b => b.1 ≤ a.1) →
      (insertDesc x l).filter (fun y => y.1 == s) =
        if x.1 = s then l.filter (fun y => y.1 == s) ++ [x]
        else l.filter (fun y => y.1 == s) := by
  intro l
  induction l with
  | nil =>
    intro _
    rw [insertDesc]
    by_cases hx : x.1 = s
    · have hb : (x.1 == s) = true := beq_iff_eq.mpr hx
      simp [List.filter, hb, hx]
    · have hb : (x.1 == s) = false := beq_eq_false_iff_ne.mpr hx
      simp [List.filter, hb, hx]
  | cons y ys ih =>
    intro h
    rw [List.pairwise_cons] at h
    rw [insertDesc]
    by_cases hge : y.1 ≥ x.1
    · rw [if_pos hge, List.filter_cons, List.filter_cons, ih h.2]
      by_cases hx : x.1 = s <;> by_cases hy : y.1 = s <;>
        simp [hx, hy]
    · rw [if_neg hge]
      by_cases hx : x.1 = s
      · have hnil : List.filter (fun z => z.1 == s) (y :: ys) = [] := by
          rw [List.filter_eq_nil_iff]
          intro z hz
          rcases List.mem_cons.mp hz with rfl | hz
          · simp only [beq_iff_eq]
            omega
          · have := h.1 z hz
            simp only [beq_iff_eq]
            omega
        simp [List.filter_cons, hx, hnil]
      · simp [List.filter_cons, hx]

theorem foldl_insertDesc_sorted (l : List (Nat × KPItem)) :
    ∀ acc : List (Nat × KPItem), acc.Pairwise (fun a b => b.1 ≤ a.1) →
      (l.foldl (fun a x => insertDesc x a) acc).Pairwise
        (fun a b => b.1 ≤ a.1) := by
  induction l with
  | nil => intro acc h; exact h
  | cons x xs ih =>
    intro acc h
    exact ih (insertDesc x acc) (insertDesc_sorted x acc h)

theorem sortDesc_sorted (l : List (Nat × KPItem)) :
    (sortDesc l).Pairwise (fun a b => b.1 ≤ a.1) :=
  foldl_insertDesc_sorted l [] List.Pairwise.nil

theorem foldl_insertDesc_filter (s : Nat) (l : List (Nat × KPItem)) :
    ∀ acc : List (Nat × KPItem), acc.Pairwise (fun a b => b.1 ≤ a.1) →
      (l.foldl (fun a x => insertDesc x a) acc).filter (fun y => y.1 == s) =
        acc.filter (fun y => y.1 == s) ++ l.filter (fun y => y.1 == s) := by
  induction l with
  | nil => intro acc _; simp
  | cons x xs ih =>
    intro acc h
    rw [List.foldl_cons, ih (insertDesc x acc) (insertDesc_sorted x acc h),
      insertDesc_filter x s acc h, List.filter_cons]
    by_cases hx : x.1 = s
    · rw [if_pos hx]
      simp [hx, List.append_assoc]
    · rw [if_neg hx]
      simp [hx]

theorem sortDesc_filter (l : List (Nat × KPItem)) (s : Nat) :
    (sortDesc l).filter (fun y => y.1 == s) = l.filter (fun y => y.1 == s) := by
  have := foldl_insertDesc_filter s l [] List.Pairwise.nil
  simpa [sortDesc] using this

theorem foldl_insertDesc_perm (l : List (Nat × KPItem)) :
    ∀ acc : List (Nat × KPItem),
      List.Perm (l.foldl (fun a x => insertDesc x a) acc) (acc ++ l) := by
  induction l with
  | nil => intro acc; simp
  | cons x xs ih =>
    intro acc
    rw [List.foldl_cons]
    refine (ih (insertDesc x acc)).trans ?_
    have h1 : List.Perm (insertDesc x acc ++ xs) ((x :: acc) ++ xs) :=
      (insertDesc_perm x acc).append_right xs
    refine h1.trans ?_
    rw [List.cons_append]
    exact List.perm_middle.symm

theorem sortDesc_perm (l : List (Nat × KPItem)) :
    List.Perm (sortDesc l) l := by
  simpa [sortDesc] using foldl_insertDesc_perm l []

theorem scored_chunks_mem {tok : String → List String} {query : String}
    {kps : List KPItem} {s : Nat} {kp : KPItem}
    (h : (s, kp) ∈ scored_chunks tok query kps) :
    kp ∈ kps ∧ kp.text ≠ "" ∧ kp_score tok query kp = s ∧ 0 < s := by
  obtain ⟨a, ha, hfa⟩ := List.mem_filterMap.mp h
  by_cases ht : a.text = ""
  · rw [if_pos ht] at hfa; cases hfa
  · rw [if_neg ht] at hfa
    by_cases hs : kp_score tok query a > 0
    · rw [if_pos hs] at hfa
      injection hfa with hpair
      injection hpair with h1 h2
      subst h2
      exact ⟨ha, ht, h1, h1 ▸ hs⟩
    · rw [if_neg hs] at hfa; cases hfa

theorem select_chunks_len_eq :
    ∀ (l : List (Nat × KPItem)) (c : Nat) (seen : List String),
      (select_chunks l c seen).1.length = (select_chunks l c seen).2.length := by
  intro l
  induction l with
  | nil => intro c seen; rfl
  | cons p rest ih =>
    intro c seen
    obtain ⟨s, kp⟩ := p
    rw [select_chunks]
    by_cases hc : c > MAX_CONTEXT_CHUNKS
    · rw [if_pos hc]
      rfl
    · rw [if_neg hc]
      by_cases hseen : seen.contains (dedupKey kp)
      · rw [if_pos hseen]; exact ih c seen
      · rw [if_neg hseen]
        simp only [List.length_cons]
        rw [ih (c + 1) (dedupKey kp :: seen)]

theorem select_chunks_cap :
    ∀ (l : List (Nat × KPItem)) (c : Nat) (seen : List String),
      (select_chunks l c seen).2.length ≤ MAX_CONTEXT_CHUNKS + 1 - c := by
  intro l
  induction l with
  | nil => intro c seen; simp [select_chunks]
  | cons p rest ih =>
    intro c seen
    obtain ⟨s, kp⟩ := p
    rw [select_chunks]
    by_cases hc : c > MAX_CONTEXT_CHUNKS
    · rw [if_pos hc]
      simp
    · rw [if_neg hc]
      by_cases hseen : seen.contains (dedupKey kp)
      · rw [if_pos hseen]; exact ih c seen
      · rw [if_neg hseen]
        simp only [List.length_cons]
        have := ih (c + 1) (dedupKey kp :: seen)
        simp [MAX_CONTEXT_CHUNKS] at hc this ⊢
        omega

theorem select_chunks_citation_ids :
    ∀ (l : List (Nat × KPItem)) (c : Nat) (seen : List String),
      (select_chunks l c seen).2.map Citation.id =
        (List.range' c (select_chunks l c seen).2.length).map toString := by
  intro l
  induction l with
  | nil => intro c seen; rfl
  | cons p rest ih =>
    intro c seen
    obtain ⟨s, kp⟩ := p
    rw [select_chunks]
    by_cases hc : c > MAX_CONTEXT_CHUNKS
    · rw [if_pos hc]; rfl
    · rw [if_neg hc]
      by_cases hseen : seen.contains (dedupKey kp)
      · rw [if_pos hseen]; exact ih c seen
      · rw [if_neg hseen]
        simp only [List.length_cons, List.map_cons, List.range']
        rw [ih (c + 1) (dedupKey kp :: seen)]

theorem select_chunks_chunk_ids :
    ∀ (l : List (Nat × KPItem)) (c : Nat) (seen : List String),
      (select_chunks l c seen).1.map Chunk.id =
        (List.range' c (select_chunks l c seen).1.length).map
          (fun k => "[" ++ toString k ++ "]") := by
  intro l
  induction l with
  | nil => intro c seen; rfl
  | cons p rest ih =>
    intro c seen
    obtain ⟨s, kp⟩ := p
    rw [select_chunks]
    by_cases hc : c > MAX_CONTEXT_CHUNKS
    · rw [if_pos hc]; rfl
    · rw [if_neg hc]
      by_cases hseen : seen.contains (dedupKey kp)
      · rw [if_pos hseen]; exact ih c seen
      · rw [if_neg hseen]
        simp only [List.length_cons, List.map_cons, List.range']
        rw [ih (c + 1) (dedupKey kp :: seen)]

theorem select_chunks_source :
    ∀ (l : List (Nat × KPItem)) (c : Nat) (seen : List String),
      ∀ cit ∈ (select_chunks l c seen).2,
        ∃ pr ∈ l, cit.text = (pr : Nat × KPItem).2.text ∧
          cit.doc_name = pr.2.doc_name := by
  intro l
  induction l with
  | nil => intro c seen cit h; cases h
  | cons p rest ih =>
    intro c seen cit h
    obtain ⟨s, kp⟩ := p
    rw [select_chunks] at h
    by_cases hc : c > MAX_CONTEXT_CHUNKS
    · rw [if_pos hc] at h; cases h
    · rw [if_neg hc] at h
      by_cases hseen : seen.contains (dedupKey kp)
      · rw [if_pos hseen] at h
        obtain ⟨pr, hpr, he⟩ := ih c seen cit h
        exact ⟨pr, List.mem_cons_of_mem _ hpr, he⟩
      · rw [if_neg hseen] at h
        rcases List.mem_cons.mp h with rfl | h
        · exact ⟨(s, kp), List.mem_cons_self _ _, rfl, rfl⟩
        · obtain ⟨pr, hpr, he⟩ := ih (c + 1) (dedupKey kp :: seen) cit h
          exact ⟨pr, List.mem_cons_of_mem _ hpr, he⟩

theorem select_chunks_keys :
    ∀ (l : List (Nat × KPItem)) (c : Nat) (seen : List String),
      (∀ ch ∈ (select_chunks l c seen).1, chunkKey ch ∉ seen) ∧
      (select_chunks l c seen).1.Pairwise
        (fun a b => chunkKey a ≠ chunkKey b) := by
  intro l
  induction l with
  | nil => intro c seen; exact ⟨fun ch h => absurd h (List.not_mem_nil ch), List.Pairwise.nil⟩
  | cons p rest ih =>
    intro c seen
    obtain ⟨s, kp⟩ := p
    rw [select_chunks]
    by_cases hc : c > MAX_CONTEXT_CHUNKS
    · rw [if_pos hc]
      exact ⟨fun ch h => absurd h (List.not_mem_nil ch), List.Pairwise.nil⟩
    · rw [if_neg hc]
      by_cases hseen : seen.contains (dedupKey kp)
      · rw [if_pos hseen]; exact ih c seen
      · rw [if_neg hseen]
        have hkey : dedupKey kp ∉ seen := by simpa using hseen
        obtain ⟨ihmem, ihpair⟩ := ih (c + 1) (dedupKey kp :: seen)
        constructor
        · intro ch hch
          rcases List.mem_cons.mp hch with rfl | hch
          · exact hkey
          · exact fun hmem => (ihmem ch hch) (List.mem_cons_of_mem _ hmem)
        · rw [List.pairwise_cons]
          refine ⟨?_, ihpair⟩
          intro ch hch heq
          apply ihmem ch hch
          rw [← heq]
          exact List.mem_cons_self _ _

/-- C8.  In the lexical RAG selection: every emitted citation comes from a
candidate with non-empty text and score greater than 0 (the score being the
number of distinct stop-word-filtered query tokens of length above 1 present
in the candidate's token set); the descending sort is stable, keeping
equal-score candidates in input order; at most `MAX_CONTEXT_CHUNKS = 8`
chunks are kept, with sequential citation markers `1, 2, …` (and `[1], [2], …`
on the LLM side) in selection order; selected chunks have pairwise distinct
deduplication keys (source document, section and text prefix); and when no
candidate scores above 0 the selection is empty and the assembled context is
the explicit no-relevant-material message rather than filler. -/
theorem C8_rag_scoring_selection_cap :
    (∀ (tok : String → List String) (query : String) (kps : List KPItem),
      ∀ cit ∈ (rag_selection tok query kps).2,
        ∃ kp, kp ∈ kps ∧ kp.text ≠ "" ∧ 0 < kp_score tok query kp ∧
          cit.text = kp.text ∧ cit.doc_name = kp.doc_name) ∧
    (∀ (tok : String → List String) (query : String) (kps : List KPItem)
        (s : Nat),
      (sortDesc (scored_chunks tok query kps)).filter (fun y => y.1 == s) =
        (scored_chunks tok query kps).filter (fun y => y.1 == s)) ∧
    (∀ (tok : String → List String) (query : String) (kps : List KPItem),
      (sortDesc (scored_chunks tok query kps)).Pairwise
        (fun a b => b.1 ≤ a.1)) ∧
    (∀ (tok : String → List String) (query : String) (kps : List KPItem),
      (rag_selection tok query kps).2.length ≤ MAX_CONTEXT_CHUNKS ∧
      (rag_selection tok query kps).2.map Citation.id =
        (List.range' 1 (rag_selection tok query kps).2.length).map toString ∧
      (rag_selection tok query kps).1.map Chunk.id =
        (List.range' 1 (rag_selection tok query kps).1.length).map
          (fun k => "[" ++ toString k ++ "]") ∧
      (rag_selection tok query kps).1.Pairwise
        (fun a b => chunkKey a ≠ chunkKey b)) ∧
    (∀ (tok : String → List String) (query : String) (kps : List KPItem),
      (∀ kp ∈ kps, kp_score tok query kp = 0) →
      (rag_selection tok query kps).2 = [] ∧
      build_context true (rag_selection tok query kps).1 =
        no_material_context) := by
  refine ⟨?_, ?_, ?_, ?_, ?_⟩
  · intro tok query kps cit hcit
    obtain ⟨pr, hpr, htext, hdoc⟩ :=
      select_chunks_source _ 1 [] cit hcit
    have hpr2 : pr ∈ scored_chunks tok query kps :=
      (sortDesc_perm _).mem_iff.mp hpr
    obtain ⟨s, kp⟩ := pr
    obtain ⟨hkp, hne, hscore, hpos⟩ := scored_chunks_mem hpr2
    exact ⟨kp, hkp, hne, hscore ▸ hpos, htext, hdoc⟩
  · intro tok query kps s
    exact sortDesc_filter _ s
  · intro tok query kps
    exact sortDesc_sorted _
  · intro tok query kps
    refine ⟨?_, select_chunks_citation_ids _ 1 [],
      select_chunks_chunk_ids _ 1 [], (select_chunks_keys _ 1 []).2⟩
    have := select_chunks_cap (sortDesc (scored_chunks tok query kps)) 1 []
    simpa [MAX_CONTEXT_CHUNKS] using this
  · intro tok query kps hzero
    have hnil : scored_chunks tok query kps = [] := by
      rw [scored_chunks, List.filterMap_eq_nil_iff]
      intro kp hkp
      by_cases ht : kp.text = ""
      · rw [if_pos ht]
      · rw [if_neg ht, if_neg (by rw [hzero kp hkp]; omega)]
    have hsel : rag_selection tok query kps = ([], []) := by
      rw [rag_selection, hnil]
      rfl
    rw [hsel]
    exact ⟨rfl, rfl⟩

/-- C8 witness: with a whole-string tokenizer, the query `"物理定律"` matches
one candidate (score 1, citation `1`) and the unmatched candidate is not
cited; and a query matching nothing yields no citations and the explicit
no-relevant-material context. -/
theorem C8_rag_scoring_selection_cap_witness :
    (rag_selection demoTok "物理定律" [demoKPmatch, demoKPmiss]).2 =
      [⟨"1", "doc.pdf", "物理定律"⟩] ∧
    (∃ kp, kp ∈ [demoKPmatch, demoKPmiss] ∧ kp.text ≠ "" ∧
      0 < kp_score demoTok "物理定律" kp ∧
      ("物理定律" : String) = kp.text ∧ ("doc.pdf" : String) = kp.doc_name) ∧
    (∀ kp ∈ [demoKPmatch, demoKPmiss], kp_score demoTok "xyzw" kp = 0) ∧
    (rag_selection demoTok "xyzw" [demoKPmatch, demoKPmiss]).2 = [] ∧
    build_context true (rag_selection demoTok "xyzw" [demoKPmatch, demoKPmiss]).1 =
      no_material_context := by
  refine ⟨by decide, ?_, by decide, ?_, ?_⟩
  · exact C8_rag_scoring_selection_cap.1 demoTok "物理定律"
      [demoKPmatch, demoKPmiss] ⟨"1", "doc.pdf", "物理定律"⟩ (by decide)
  · exact (C8_rag_scoring_selection_cap.2.2.2.2 demoTok "xyzw"
      [demoKPmatch, demoKPmiss] (by decide)).1
  · exact (C8_rag_scoring_selection_cap.2.2.2.2 demoTok "xyzw"
      [demoKPmatch, demoKPmiss] (by decide)).2

/-! ## Theorems: subgraph filter infrastructure (claims C5, C9, C10) -/

theorem dictInsert_mem {m : List (String × GNode)} {k : String} {v : GNode}
    {kv : String × GNode} (h : kv ∈ dictInsert m k v) :
    kv ∈ m ∨ kv = (k, v) := by
  induction m with
  | nil => simpa [dictInsert] using h
  | cons p rest ih =>
    rw [dictInsert] at h
    by_cases hk : p.1 = k
    · rw [if_pos hk] at h
      rcases List.mem_cons.mp h with heq | h
      · right
        rw [heq, Prod.mk.injEq]
        exact ⟨hk, rfl⟩
      · exact Or.inl (List.mem_cons_of_mem _ h)
    · rw [if_neg hk] at h
      rcases List.mem_cons.mp h with rfl | h
      · exact Or.inl (List.mem_cons_self _ _)
      · rcases ih h with h | h
        · exact Or.inl (List.mem_cons_of_mem _ h)
        · exact Or.inr h

theorem node_map_entry_id (nodes : List GNode) :
    ∀ kv ∈ node_map nodes, kv.2.id = kv.1 := by
  have hgen : ∀ (l : List GNode) (m : List (String × GNode)),
      (∀ kv ∈ m, kv.2.id = kv.1) →
      ∀ kv ∈ l.foldl (fun acc n => dictInsert acc n.id n) m, kv.2.id = kv.1 := by
    intro l
    induction l with
    | nil => intro m hm kv hkv; exact hm kv hkv
    | cons n rest ih =>
      intro m hm kv hkv
      rw [List.foldl_cons] at hkv
      refine ih (dictInsert m n.id n) ?_ kv hkv
      intro kv' hkv'
      rcases dictInsert_mem hkv' with h | rfl
      · exact hm kv' h
      · rfl
  intro kv hkv
  exact hgen nodes [] (fun kv h => absurd h (List.not_mem_nil kv)) kv hkv

theorem dictGet?_mem {m : List (String × GNode)} {k : String} {v : GNode}
    (h : dictGet? m k = some v) : (k, v) ∈ m := by
  rw [dictGet?] at h
  cases hf : m.find? (fun p => p.1 == k) with
  | none => rw [hf] at h; cases h
  | some kv =>
    rw [hf] at h
    injection h with h
    have hmem := List.mem_of_find?_eq_some hf
    have hpk := List.find?_some hf
    have : kv.1 = k := by simpa using hpk
    have : kv = (k, v) := by
      obtain ⟨k1, v1⟩ := kv
      simp only at h this
      rw [Prod.mk.injEq]
      exact ⟨this, h⟩
    exact this ▸ hmem

theorem dictGet?_id (nodes : List GNode) {k : String} {v : GNode}
    (h : dictGet? (node_map nodes) k = some v) : v.id = k :=
  node_map_entry_id nodes (k, v) (dictGet?_mem h)

theorem dictGet?_key_mem {m : List (String × GNode)} {k : String}
    (h : (dictGet? m k).isSome) : k ∈ m.map Prod.fst := by
  obtain ⟨v, hv⟩ := Option.isSome_iff_exists.mp h
  exact List.mem_map_of_mem Prod.fst (dictGet?_mem hv)

theorem dictInsert_length (m : List (String × GNode)) (k : String) (v : GNode) :
    (dictInsert m k v).length ≤ m.length + 1 := by
  induction m with
  | nil => simp [dictInsert]
  | cons p rest ih =>
    rw [dictInsert]
    by_cases hk : p.1 = k
    · rw [if_pos hk]
      simp
    · rw [if_neg hk]
      simp only [List.length_cons]
      omega

theorem node_map_length (nodes : List GNode) :
    (node_map nodes).length ≤ nodes.length := by
  have hgen : ∀ (l : List GNode) (m : List (String × GNode)),
      (l.foldl (fun acc n => dictInsert acc n.id n) m).length ≤
        m.length + l.length := by
    intro l
    induction l with
    | nil => intro m; simp
    | cons n rest ih =>
      intro m
      rw [List.foldl_cons]
      have h1 := ih (dictInsert m n.id n)
      have h2 := dictInsert_length m n.id n
      simp only [List.length_cons]
      omega
  simpa using hgen nodes []

theorem mapUniv_card_le (nodes : List GNode) :
    (mapUniv nodes).card ≤ nodes.length := by
  calc (mapUniv nodes).card ≤ ((node_map nodes).map Prod.fst).length :=
        List.toFinset_card_le _
    _ = (node_map nodes).length := List.length_map _ _
    _ ≤ nodes.length := node_map_length nodes

theorem idsUniv_card_le (nodes : List GNode) :
    (idsUniv nodes).card ≤ nodes.length := by
  calc (idsUniv nodes).card ≤ (nodes.map GNode.id).length :=
        List.toFinset_card_le _
    _ = nodes.length := List.length_map _ _

theorem adjOf_subset_ids (nodes : List GNode) (p c : String)
    (h : c ∈ adjOf nodes p) : c ∈ idsUniv nodes := by
  rw [adjOf] at h
  obtain ⟨n, hn, rfl⟩ := List.mem_map.mp h
  rw [idsUniv, List.mem_toFinset]
  exact List.mem_map_of_mem GNode.id (List.mem_of_mem_filter hn)

theorem adjOf_not_root (nodes : List GNode)
    (hnd : (nodes.map GNode.id).Nodup) (p c : String)
    (h : c ∈ adjOf nodes p) : c ∉ root_ids nodes := by
  rw [adjOf] at h
  obtain ⟨n1, hn1, rfl⟩ := List.mem_map.mp h
  obtain ⟨hn1mem, hn1cond⟩ := List.mem_filter.mp hn1
  intro hroot
  rw [root_ids] at hroot
  obtain ⟨n2, hn2, hid⟩ := List.mem_map.mp hroot
  obtain ⟨hn2mem, hn2cond⟩ := List.mem_filter.mp hn2
  have heq : n2 = n1 :=
    List.inj_on_of_nodup_map hnd hn2mem hn1mem hid
  rw [heq] at hn2cond
  rw [Bool.and_eq_true] at hn1cond
  rw [hn2cond] at hn1cond
  simp at hn1cond

theorem kept0_mem (nodes : List GNode) (targets : List String) (x : String) :
    x ∈ kept0 nodes targets ↔
      x ∈ root_ids nodes ∨ x ∈ matched_ids nodes targets := by
  rw [kept0, Finset.mem_union, List.mem_toFinset, List.mem_toFinset]

theorem matched_subset_kept0 (nodes : List GNode) (targets : List String)
    (x : String) (h : x ∈ matched_ids nodes targets) :
    x ∈ kept0 nodes targets :=
  (kept0_mem nodes targets x).mpr (Or.inr h)

theorem bfsStep_kept_mono :
    ∀ (cs : List String) (kept : Finset String) (acc : List String),
      kept ⊆ (bfsStep kept acc cs).1 := by
  intro cs
  induction cs with
  | nil => intro kept acc; exact Finset.Subset.refl _
  | cons c cs ih =>
    intro kept acc
    rw [bfsStep]
    by_cases hc : c ∈ kept
    · rw [if_pos hc]; exact ih kept acc
    · rw [if_neg hc]
      exact (Finset.subset_insert c kept).trans (ih (insert c kept) (acc ++ [c]))

theorem bfsStep_kept_mem :
    ∀ (cs : List String) (kept : Finset String) (acc : List String) (x : String),
      x ∈ (bfsStep kept acc cs).1 ↔ x ∈ kept ∨ x ∈ cs := by
  intro cs
  induction cs with
  | nil => intro kept acc x; rw [bfsStep]; simp
  | cons c cs ih =>
    intro kept acc x
    rw [bfsStep]
    by_cases hc : c ∈ kept
    · rw [if_pos hc, ih]
      constructor
      · rintro (hx | hx)
        · exact Or.inl hx
        · exact Or.inr (List.mem_cons_of_mem _ hx)
      · rintro (hx | hx)
        · exact Or.inl hx
        · rcases List.mem_cons.mp hx with rfl | hx
          · exact Or.inl hc
          · exact Or.inr hx
    · rw [if_neg hc, ih]
      simp only [Finset.mem_insert, List.mem_cons]
      tauto

theorem bfsStep_acc_mono :
    ∀ (cs : List String) (kept : Finset String) (acc : List String) (y : String),
      y ∈ acc → y ∈ (bfsStep kept acc cs).2 := by
  intro cs
  induction cs with
  | nil => intro kept acc y hy; exact hy
  | cons c cs ih =>
    intro kept acc y hy
    rw [bfsStep]
    by_cases hc : c ∈ kept
    · rw [if_pos hc]; exact ih kept acc y hy
    · rw [if_neg hc]
      exact ih (insert c kept) (acc ++ [c]) y (List.mem_append_left _ hy)

theorem bfsStep_queue_src :
    ∀ (cs : List String) (kept : Finset String) (acc : List String) (y : String),
      y ∈ (bfsStep kept acc cs).2 → y ∈ acc ∨ y ∈ cs := by
  intro cs
  induction cs with
  | nil => intro kept acc y hy; exact Or.inl hy
  | cons c cs ih =>
    intro kept acc y hy
    rw [bfsStep] at hy
    by_cases hc : c ∈ kept
    · rw [if_pos hc] at hy
      rcases ih kept acc y hy with h | h
      · exact Or.inl h
      · exact Or.inr (List.mem_cons_of_mem _ h)
    · rw [if_neg hc] at hy
      rcases ih (insert c kept) (acc ++ [c]) y hy with h | h
      · rcases List.mem_append.mp h with h | h
        · exact Or.inl h
        · rcases List.mem_singleton.mp h with rfl
          exact Or.inr (List.mem_cons_self _ _)
      · exact Or.inr (List.mem_cons_of_mem _ h)

theorem bfsStep_queue_kept :
    ∀ (cs : List String) (kept : Finset String) (acc : List String) (y : String),
      y ∈ (bfsStep kept acc cs).2 → y ∈ (bfsStep kept acc cs).1 ∨ y ∈ acc := by
  intro cs
  induction cs with
  | nil => intro kept acc y hy; exact Or.inr hy
  | cons c cs ih =>
    intro kept acc y hy
    rw [bfsStep] at hy ⊢
    by_cases hc : c ∈ kept
    · rw [if_pos hc] at hy ⊢
      exact ih kept acc y hy
    · rw [if_neg hc] at hy ⊢
      rcases ih (insert c kept) (acc ++ [c]) y hy with h | h
      · exact Or.inl h
      · rcases List.mem_append.mp h with h | h
        · exact Or.inr h
        · rcases List.mem_singleton.mp h with rfl
          exact Or.inl (bfsStep_kept_mono cs _ _ (Finset.mem_insert_self y kept))

theorem bfsStep_new_in_queue :
    ∀ (cs : List String) (kept : Finset String) (acc : List String) (x : String),
      x ∈ (bfsStep kept acc cs).1 → x ∉ kept → x ∈ (bfsStep kept acc cs).2 := by
  intro cs
  induction cs with
  | nil => intro kept acc x hx hnx; exact absurd hx hnx
  | cons c cs ih =>
    intro kept acc x hx hnx
    rw [bfsStep] at hx ⊢
    by_cases hc : c ∈ kept
    · rw [if_pos hc] at hx ⊢
      exact ih kept acc x hx hnx
    · rw [if_neg hc] at hx ⊢
      by_cases hxc : x = c
      · subst hxc
        exact bfsStep_acc_mono cs (insert x kept) (acc ++ [x]) x
          (List.mem_append_right _ (List.mem_singleton.mpr rfl))
      · refine ih (insert c kept) (acc ++ [c]) x hx ?_
        rw [Finset.mem_insert]
        rintro (rfl | h)
        · exact hxc rfl
        · exact hnx h

theorem bfsStep_measure (U : Finset String) :
    ∀ (cs : List String) (kept : Finset String) (acc : List String),
      (∀ c ∈ cs, c ∈ U) →
      (U \ (bfsStep kept acc cs).1).card + (bfsStep kept acc cs).2.length ≤
        (U \ kept).card + acc.length := by
  intro cs
  induction cs with
  | nil => intro kept acc _; exact Nat.le_refl _
  | cons c cs ih =>
    intro kept acc hU
    rw [bfsStep]
    by_cases hc : c ∈ kept
    · rw [if_pos hc]
      exact ih kept acc (fun d hd => hU d (List.mem_cons_of_mem _ hd))
    · rw [if_neg hc]
      have hcU : c ∈ U := hU c (List.mem_cons_self _ _)
      have hcd : c ∈ U \ kept := Finset.mem_sdiff.mpr ⟨hcU, hc⟩
      have hcard : (U \ insert c kept).card = (U \ kept).card - 1 := by
        rw [Finset.sdiff_insert, Finset.card_erase_of_mem hcd]
      have hpos : 0 < (U \ kept).card := Finset.card_pos.mpr ⟨c, hcd⟩
      have := ih (insert c kept) (acc ++ [c])
        (fun d hd => hU d (List.mem_cons_of_mem _ hd))
      rw [hcard, List.length_append, List.length_singleton] at this
      omega

theorem bfs_kept_mono (nodes : List GNode) :
    ∀ (fuel : Nat) (queue : List String) (kept : Finset String),
      kept ⊆ bfs nodes fuel queue kept := by
  intro fuel
  induction fuel with
  | zero => intro queue kept; rw [bfs]
  | succ fuel ih =>
    intro queue kept
    cases queue with
    | nil => rw [bfs]
    | cons q rest =>
      rw [bfs]
      exact (bfsStep_kept_mono (adjOf nodes q) kept []).trans (ih _ _)

theorem bfs_subset_reach (nodes : List GNode) :
    ∀ (fuel : Nat) (queue : List String) (kept : Finset String) (x : String),
      x ∈ bfs nodes fuel queue kept →
      x ∈ kept ∨ ∃ q ∈ queue, Relation.ReflTransGen (childStep nodes) q x := by
  intro fuel
  induction fuel with
  | zero => intro queue kept x hx; rw [bfs] at hx; exact Or.inl hx
  | succ fuel ih =>
    intro queue kept x hx
    cases queue with
    | nil => rw [bfs] at hx; exact Or.inl hx
    | cons q rest =>
      rw [bfs] at hx
      rcases ih _ _ x hx with hx | ⟨q', hq', hreach⟩
      · rcases (bfsStep_kept_mem (adjOf nodes q) kept [] x).mp hx with hx | hx
        · exact Or.inl hx
        · exact Or.inr ⟨q, List.mem_cons_self _ _,
            Relation.ReflTransGen.single hx⟩
      · rcases List.mem_append.mp hq' with hq' | hq'
        · exact Or.inr ⟨q', List.mem_cons_of_mem _ hq', hreach⟩
        · rcases bfsStep_queue_src (adjOf nodes q) kept [] q' hq' with h | h
          · cases h
          · exact Or.inr ⟨q, List.mem_cons_self _ _,
              Relation.ReflTransGen.head h hreach⟩

theorem bfs_measure_step (nodes : List GNode) (q : String) (rest : List String)
    (kept : Finset String) :
    (idsUniv nodes \ (bfsStep kept [] (adjOf nodes q)).1).card +
      (rest ++ (bfsStep kept [] (adjOf nodes q)).2).length ≤
    (idsUniv nodes \ kept).card + rest.length := by
  have h := bfsStep_measure (idsUniv nodes) (adjOf nodes q) kept []
    (fun c hc => adjOf_subset_ids nodes q c hc)
  rw [List.length_append]
  simp only [List.length_nil] at h
  omega

theorem bfs_queue_children (nodes : List GNode) :
    ∀ (fuel : Nat) (queue : List String) (kept : Finset String),
      (idsUniv nodes \ kept).card + queue.length ≤ fuel →
      ∀ q ∈ queue, ∀ c ∈ adjOf nodes q, c ∈ bfs nodes fuel queue kept := by
  intro fuel
  induction fuel with
  | zero =>
    intro queue kept hμ q hq c _
    rw [Nat.le_zero] at hμ
    have : queue.length = 0 := by omega
    rw [List.length_eq_zero] at this
    subst this
    cases hq
  | succ fuel ih =>
    intro queue kept hμ q hq c hc
    cases queue with
    | nil => cases hq
    | cons q0 rest =>
      rw [bfs]
      have hμ' : (idsUniv nodes \ (bfsStep kept [] (adjOf nodes q0)).1).card +
          (rest ++ (bfsStep kept [] (adjOf nodes q0)).2).length ≤ fuel := by
        have := bfs_measure_step nodes q0 rest kept
        simp only [List.length_cons] at hμ
        omega
      rcases List.mem_cons.mp hq with rfl | hq
      · refine bfs_kept_mono nodes fuel _ _ ?_
        exact (bfsStep_kept_mem (adjOf nodes q) kept [] c).mpr (Or.inr hc)
      · exact ih _ _ hμ' q (List.mem_append_left _ hq) c hc

theorem bfs_new_children (nodes : List GNode) :
    ∀ (fuel : Nat) (queue : List String) (kept : Finset String),
      (idsUniv nodes \ kept).card + queue.length ≤ fuel →
      ∀ x, x ∈ bfs nodes fuel queue kept → x ∉ kept →
        ∀ c ∈ adjOf nodes x, c ∈ bfs nodes fuel queue kept := by
  intro fuel
  induction fuel with
  | zero =>
    intro queue kept _ x hx hnx c _
    rw [bfs] at hx
    exact absurd hx hnx
  | succ fuel ih =>
    intro queue kept hμ x hx hnx c hc
    cases queue with
    | nil =>
      rw [bfs] at hx
      exact absurd hx hnx
    | cons q0 rest =>
      rw [bfs] at hx ⊢
      have hμ' : (idsUniv nodes \ (bfsStep kept [] (adjOf nodes q0)).1).card +
          (rest ++ (bfsStep kept [] (adjOf nodes q0)).2).length ≤ fuel := by
        have := bfs_measure_step nodes q0 rest kept
        simp only [List.length_cons] at hμ
        omega
      by_cases hx1 : x ∈ (bfsStep kept [] (adjOf nodes q0)).1
      · have hq : x ∈ (bfsStep kept [] (adjOf nodes q0)).2 :=
          bfsStep_new_in_queue (adjOf nodes q0) kept [] x hx1 hnx
        exact bfs_queue_children nodes fuel _ _ hμ' x
          (List.mem_append_right _ hq) c hc
      · exact ih _ _ hμ' x hx hx1 c hc

theorem bfs_reach_superset (nodes : List GNode)
    (fuel : Nat) (queue : List String) (kept : Finset String)
    (hμ : (idsUniv nodes \ kept).card + queue.length ≤ fuel)
    (hqk : ∀ q ∈ queue, q ∈ kept)
    (hc : ∀ p c, c ∈ adjOf nodes p → c ∈ kept → c ∈ queue) :
    ∀ q ∈ queue, ∀ d, Relation.ReflTransGen (childStep nodes) q d →
      d ∈ bfs nodes fuel queue kept := by
  intro q hq d hreach
  have hmain : d ∈ bfs nodes fuel queue kept ∧ (d ∈ queue ∨ d ∉ kept) := by
    induction hreach with
    | refl => exact ⟨bfs_kept_mono nodes fuel queue kept (hqk q hq), Or.inl hq⟩
    | tail hstep hrel ih =>
      rename_i y z
      have hzin : z ∈ bfs nodes fuel queue kept := by
        rcases ih.2 with hy | hy
        · exact bfs_queue_children nodes fuel queue kept hμ y hy z hrel
        · exact bfs_new_children nodes fuel queue kept hμ y ih.1 hy z hrel
      refine ⟨hzin, ?_⟩
      by_cases hzk : z ∈ kept
      · exact Or.inl (hc y z hrel hzk)
      · exact Or.inr hzk
  exact hmain.1

theorem bfs_char (nodes : List GNode)
    (fuel : Nat) (queue : List String) (kept : Finset String)
    (hμ : (idsUniv nodes \ kept).card + queue.length ≤ fuel)
    (hqk : ∀ q ∈ queue, q ∈ kept)
    (hc : ∀ p c, c ∈ adjOf nodes p → c ∈ kept → c ∈ queue) :
    ∀ x, x ∈ bfs nodes fuel queue kept ↔
      x ∈ kept ∨ ∃ q ∈ queue, Relation.ReflTransGen (childStep nodes) q x := by
  intro x
  constructor
  · exact bfs_subset_reach nodes fuel queue kept x
  · rintro (hx | ⟨q, hq, hreach⟩)
    · exact bfs_kept_mono nodes fuel queue kept hx
    · exact bfs_reach_superset nodes fuel queue kept hμ hqk hc q hq x hreach

theorem bfs_fuel_stable (nodes : List GNode) :
    ∀ (f1 f2 : Nat) (queue : List String) (kept : Finset String),
      (idsUniv nodes \ kept).card + queue.length ≤ f1 →
      (idsUniv nodes \ kept).card + queue.length ≤ f2 →
      bfs nodes f1 queue kept = bfs nodes f2 queue kept := by
  intro f1
  induction f1 with
  | zero =>
    intro f2 queue kept h1 _
    rw [Nat.le_zero] at h1
    have : queue.length = 0 := by omega
    rw [List.length_eq_zero] at this
    subst this
    cases f2 with
    | zero => rfl
    | succ f2 => rw [bfs, bfs]
  | succ f1 ih =>
    intro f2 queue kept h1 h2
    cases queue with
    | nil =>
      cases f2 with
      | zero => rw [bfs, bfs]
      | succ f2 => rw [bfs, bfs]
    | cons q rest =>
      simp only [List.length_cons] at h1 h2
      cases f2 with
      | zero => omega
      | succ f2 =>
        rw [bfs, bfs]
        have hstep := bfs_measure_step nodes q rest kept
        exact ih f2 _ _ (by omega) (by omega)

theorem traceUp_mono (nodes : List GNode) :
    ∀ (fuel : Nat) (kept : Finset String) (x : String),
      kept ⊆ traceUp nodes fuel kept x := by
  intro fuel
  induction fuel with
  | zero => intro kept x; rw [traceUp]
  | succ fuel ih =>
    intro kept x
    rw [traceUp]
    cases hv : dictGet? (node_map nodes) x with
    | none => dsimp only; exact Finset.Subset.refl _
    | some v =>
      dsimp only
      cases hp : v.pid with
      | none => exact Finset.Subset.refl _
      | some p =>
        dsimp only
        split_ifs with h1 h2 h3 h4
        · exact Finset.Subset.refl _
        · exact Finset.Subset.refl _
        · exact Finset.Subset.refl _
        · exact (Finset.subset_insert p kept).trans (ih (insert p kept) p)
        · exact Finset.Subset.refl _

theorem traceUp_subset (nodes : List GNode) :
    ∀ (fuel : Nat) (kept : Finset String) (x y : String),
      y ∈ traceUp nodes fuel kept x →
      y ∈ kept ∨ Relation.ReflTransGen (parentStep nodes) x y := by
  intro fuel
  induction fuel with
  | zero => intro kept x y hy; rw [traceUp] at hy; exact Or.inl hy
  | succ fuel ih =>
    intro kept x y hy
    rw [traceUp] at hy
    cases hv : dictGet? (node_map nodes) x with
    | none => simp only [hv] at hy; exact Or.inl hy
    | some v =>
      simp only [hv] at hy
      cases hp : v.pid with
      | none => simp only [hp] at hy; exact Or.inl hy
      | some p =>
        simp only [hp] at hy
        split_ifs at hy with h1 h2 h3 h4
        · exact Or.inl hy
        · exact Or.inl hy
        · exact Or.inl hy
        · have hstep : parentStep nodes x p := ⟨v, hv, hp, h1, h2, h4⟩
          rcases ih (insert p kept) p y hy with hy' | hy'
          · rcases Finset.mem_insert.mp hy' with rfl | hy''
            · exact Or.inr (Relation.ReflTransGen.single hstep)
            · exact Or.inl hy''
          · exact Or.inr (Relation.ReflTransGen.head hstep hy')
        · exact Or.inl hy

theorem traceUp_succ_cover (nodes : List GNode) :
    ∀ (fuel : Nat) (kept : Finset String) (x z : String), 0 < fuel →
      parentStep nodes x z → z ∈ traceUp nodes fuel kept x := by
  intro fuel
  cases fuel with
  | zero => intro kept x z h; omega
  | succ fuel =>
    intro kept x z _ hstep
    obtain ⟨v, hv, hp, h1, h2, h4⟩ := hstep
    rw [traceUp]
    simp only [hv, hp, if_neg h1, if_neg h2]
    by_cases hk : z ∈ kept
    · rw [if_pos hk]; exact hk
    · rw [if_neg hk, if_pos h4]
      exact traceUp_mono nodes fuel (insert z kept) z
        (Finset.mem_insert_self z kept)

theorem parentStep_target_mem (nodes : List GNode) {x z : String}
    (h : parentStep nodes x z) : z ∈ mapUniv nodes := by
  obtain ⟨v, _, _, _, _, h4⟩ := h
  rw [mapUniv, List.mem_toFinset]
  exact dictGet?_key_mem h4

theorem traceUp_added_cover (nodes : List GNode) :
    ∀ (fuel : Nat) (kept : Finset String) (x : String),
      (mapUniv nodes \ kept).card < fuel →
      ∀ y, y ∈ traceUp nodes fuel kept x → y ∉ kept →
      ∀ z, parentStep nodes y z → z ∈ traceUp nodes fuel kept x := by
  intro fuel
  induction fuel with
  | zero => intro kept x h; omega
  | succ fuel ih =>
    intro kept x hcard y hy hny z hz
    rw [traceUp] at hy ⊢
    cases hv : dictGet? (node_map nodes) x with
    | none => simp only [hv] at hy; exact absurd hy hny
    | some v =>
      simp only [hv] at hy ⊢
      cases hp : v.pid with
      | none => simp only [hp] at hy; exact absurd hy hny
      | some p =>
        simp only [hp] at hy ⊢
        split_ifs at hy ⊢ with h1 h2 h3 h4
        · exact absurd hy hny
        · exact absurd hy hny
        · exact absurd hy hny
        · have hpmem : p ∈ mapUniv nodes := by
            rw [mapUniv, List.mem_toFinset]
            exact dictGet?_key_mem h4
          have hpd : p ∈ mapUniv nodes \ kept := Finset.mem_sdiff.mpr ⟨hpmem, h3⟩
          have hcard' : (mapUniv nodes \ insert p kept).card < fuel := by
            rw [Finset.sdiff_insert, Finset.card_erase_of_mem hpd]
            have hpos : 0 < (mapUniv nodes \ kept).card :=
              Finset.card_pos.mpr ⟨p, hpd⟩
            omega
          by_cases hyp : y = p
          · subst hyp
            exact traceUp_succ_cover nodes fuel (insert y kept) y z
              (by omega) hz
          · refine ih (insert p kept) p hcard' y hy ?_ z hz
            rw [Finset.mem_insert]
            rintro (rfl | h)
            · exact hyp rfl
            · exact hny h
        · exact absurd hy hny

theorem traceUp_fuel_stable (nodes : List GNode) :
    ∀ (f1 f2 : Nat) (kept : Finset String) (x : String),
      (mapUniv nodes \ kept).card < f1 →
      (mapUniv nodes \ kept).card < f2 →
      traceUp nodes f1 kept x = traceUp nodes f2 kept x := by
  intro f1
  induction f1 with
  | zero => intro f2 kept x h; omega
  | succ f1 ih =>
    intro f2 kept x h1 h2
    cases f2 with
    | zero => omega
    | succ f2 =>
      rw [traceUp, traceUp]
      cases hv : dictGet? (node_map nodes) x with
      | none => rfl
      | some v =>
        dsimp only
        cases hp : v.pid with
        | none => rfl
        | some p =>
          dsimp only
          split_ifs with hc1 hc2 hc3 hc4
          · rfl
          · rfl
          · rfl
          · have hpmem : p ∈ mapUniv nodes := by
              rw [mapUniv, List.mem_toFinset]
              exact dictGet?_key_mem hc4
            have hpd : p ∈ mapUniv nodes \ kept :=
              Finset.mem_sdiff.mpr ⟨hpmem, hc3⟩
            have hcard : (mapUniv nodes \ insert p kept).card =
                (mapUniv nodes \ kept).card - 1 := by
              rw [Finset.sdiff_insert, Finset.card_erase_of_mem hpd]
            have hpos : 0 < (mapUniv nodes \ kept).card :=
              Finset.card_pos.mpr ⟨p, hpd⟩
            exact ih f2 (insert p kept) p (by omega) (by omega)
          · rfl

theorem step4_mono (nodes : List GNode) (fuel : Nat) :
    ∀ (es : List String) (kept : Finset String),
      kept ⊆ step4 nodes fuel es kept := by
  intro es
  induction es with
  | nil => intro kept; rw [step4]; exact Finset.Subset.refl _
  | cons e rest ih =>
    intro kept
    rw [step4, List.foldl_cons]
    exact (traceUp_mono nodes fuel kept e).trans (ih (traceUp nodes fuel kept e))

theorem step4_subset (nodes : List GNode) (fuel : Nat) :
    ∀ (es : List String) (kept : Finset String) (y : String),
      y ∈ step4 nodes fuel es kept →
      y ∈ kept ∨ ∃ x ∈ es, Relation.ReflTransGen (parentStep nodes) x y := by
  intro es
  induction es with
  | nil => intro kept y hy; rw [step4] at hy; exact Or.inl hy
  | cons e rest ih =>
    intro kept y hy
    rw [step4, List.foldl_cons] at hy
    rcases ih (traceUp nodes fuel kept e) y hy with hy' | ⟨x, hx, hreach⟩
    · rcases traceUp_subset nodes fuel kept e y hy' with hy'' | hy''
      · exact Or.inl hy''
      · exact Or.inr ⟨e, List.mem_cons_self _ _, hy''⟩
    · exact Or.inr ⟨x, List.mem_cons_of_mem _ hx, hreach⟩

theorem step4_closed (nodes : List GNode) (fuel : Nat) :
    ∀ (es : List String) (kept : Finset String),
      (mapUniv nodes \ kept).card < fuel →
      ∀ y z, y ∈ step4 nodes fuel es kept → (y ∈ es ∨ y ∉ kept) →
        parentStep nodes y z → z ∈ step4 nodes fuel es kept := by
  intro es
  induction es with
  | nil =>
    intro kept _ y z hy hcov hz
    rw [step4] at hy
    rcases hcov with hcov | hcov
    · cases hcov
    · exact absurd hy hcov
  | cons e rest ih =>
    intro kept hcard y z hy hcov hz
    rw [step4, List.foldl_cons] at hy ⊢
    have hsub : kept ⊆ traceUp nodes fuel kept e := traceUp_mono nodes fuel kept e
    have hcard' : (mapUniv nodes \ traceUp nodes fuel kept e).card < fuel := by
      have : mapUniv nodes \ traceUp nodes fuel kept e ⊆ mapUniv nodes \ kept :=
        Finset.sdiff_subset_sdiff (Finset.Subset.refl _) hsub
      have := Finset.card_le_card this
      omega
    by_cases hy1 : y ∈ rest ∨ y ∉ traceUp nodes fuel kept e
    · exact ih (traceUp nodes fuel kept e) hcard' y z hy hy1 hz
    · push_neg at hy1
      obtain ⟨hyrest, hykept'⟩ := hy1
      rcases hcov with hcov | hcov
      · rcases List.mem_cons.mp hcov with rfl | hcov
        · have hzin : z ∈ traceUp nodes fuel kept y :=
            traceUp_succ_cover nodes fuel kept y z (by omega) hz
          exact step4_mono nodes fuel rest (traceUp nodes fuel kept y) hzin
        · exact absurd hcov hyrest
      · have hzin : z ∈ traceUp nodes fuel kept e :=
          traceUp_added_cover nodes fuel kept e hcard y hykept' hcov z hz
        exact step4_mono nodes fuel rest (traceUp nodes fuel kept e) hzin

theorem step4_char (nodes : List GNode) (fuel : Nat)
    (es : List String) (kept : Finset String)
    (hcard : (mapUniv nodes \ kept).card < fuel)
    (he : ∀ x, x ∈ es ↔ x ∈ kept) :
    ∀ y, y ∈ step4 nodes fuel es kept ↔
      ∃ b ∈ kept, Relation.ReflTransGen (parentStep nodes) b y := by
  intro y
  constructor
  · intro hy
    rcases step4_subset nodes fuel es kept y hy with hy' | ⟨x, hx, hreach⟩
    · exact ⟨y, hy', Relation.ReflTransGen.refl⟩
    · exact ⟨x, (he x).mp hx, hreach⟩
  · rintro ⟨b, hb, hreach⟩
    induction hreach with
    | refl => exact step4_mono nodes fuel es kept hb
    | tail hstep hrel ih =>
      rename_i c d
      refine step4_closed nodes fuel es kept hcard c d ih ?_ hrel
      by_cases hck : c ∈ kept
      · exact Or.inl ((he c).mpr hck)
      · exact Or.inr hck

theorem step4_fuel_stable (nodes : List GNode) :
    ∀ (es : List String) (f1 f2 : Nat) (kept : Finset String),
      (mapUniv nodes \ kept).card < f1 →
      (mapUniv nodes \ kept).card < f2 →
      step4 nodes f1 es kept = step4 nodes f2 es kept := by
  intro es
  induction es with
  | nil => intro f1 f2 kept _ _; rw [step4, step4]; rfl
  | cons e rest ih =>
    intro f1 f2 kept h1 h2
    rw [step4, List.foldl_cons, step4, List.foldl_cons]
    rw [traceUp_fuel_stable nodes f1 f2 kept e h1 h2]
    have hcard' : (mapUniv nodes \ traceUp nodes f2 kept e).card <
        min f1 f2 := by
      have hsub : mapUniv nodes \ traceUp nodes f2 kept e ⊆
          mapUniv nodes \ kept :=
        Finset.sdiff_subset_sdiff (Finset.Subset.refl _)
          (traceUp_mono nodes f2 kept e)
      have := Finset.card_le_card hsub
      omega
    have h1' : (mapUniv nodes \ traceUp nodes f2 kept e).card < f1 := by omega
    have h2' : (mapUniv nodes \ traceUp nodes f2 kept e).card < f2 := by omega
    have := ih f1 f2 (traceUp nodes f2 kept e) h1' h2'
    rw [step4, step4] at this
    exact this

/-! ## Kept-set characterization (steps 1 to 4 of the filter) -/

theorem enum_mem {e : List String} {t : Finset String}
    (h : IsEnumOf e t) : ∀ q, q ∈ e ↔ q ∈ t := by
  intro q
  rw [← h.2, List.mem_toFinset]

theorem kept3_char (nodes : List GNode) (targets : List String)
    (mEnum : List String)
    (hnd : (nodes.map GNode.id).Nodup)
    (hm : IsEnumOf mEnum (matched_ids nodes targets).toFinset) :
    ∀ x, x ∈ kept3 nodes targets mEnum ↔ baseKeep nodes targets x := by
  intro x
  have hmem : ∀ q, q ∈ mEnum ↔ q ∈ matched_ids nodes targets := by
    intro q
    rw [enum_mem hm q, List.mem_toFinset]
  have hmu : (idsUniv nodes \ kept0 nodes targets).card + mEnum.length ≤
      mEnum.length + nodes.length + 1 := by
    have h1 : (idsUniv nodes \ kept0 nodes targets).card ≤
        (idsUniv nodes).card := Finset.card_le_card Finset.sdiff_subset
    have h2 := idsUniv_card_le nodes
    omega
  have hqk : ∀ q ∈ mEnum, q ∈ kept0 nodes targets := fun q hq =>
    matched_subset_kept0 nodes targets q ((hmem q).mp hq)
  have hc : ∀ p c, c ∈ adjOf nodes p → c ∈ kept0 nodes targets →
      c ∈ mEnum := by
    intro p c hadj hk
    rcases (kept0_mem nodes targets c).mp hk with hr | hmm
    · exact absurd hr (adjOf_not_root nodes hnd p c hadj)
    · exact (hmem c).mpr hmm
  rw [kept3,
    bfs_char nodes (mEnum.length + nodes.length + 1) mEnum
      (kept0 nodes targets) hmu hqk hc x,
    baseKeep, kept0_mem]
  constructor
  · rintro (h | ⟨q, hq, hreach⟩)
    · rcases h with h | h
      · exact Or.inl h
      · exact Or.inr (Or.inl h)
    · exact Or.inr (Or.inr ⟨q, (hmem q).mp hq, hreach⟩)
  · rintro (h | h | ⟨m, hmm, hreach⟩)
    · exact Or.inl (Or.inl h)
    · exact Or.inl (Or.inr h)
    · exact Or.inr ⟨m, (hmem m).mpr hmm, hreach⟩

theorem kept_ids_char (nodes : List GNode) (targets : List String)
    (mEnum kEnum : List String)
    (hnd : (nodes.map GNode.id).Nodup)
    (hm : IsEnumOf mEnum (matched_ids nodes targets).toFinset)
    (hk : IsEnumOf kEnum (kept3 nodes targets mEnum)) :
    ∀ y, y ∈ kept_ids nodes targets mEnum kEnum ↔
      specKeep nodes targets y := by
  intro y
  have hmemk : ∀ x, x ∈ kEnum ↔ x ∈ kept3 nodes targets mEnum := enum_mem hk
  have hcard : (mapUniv nodes \ kept3 nodes targets mEnum).card <
      nodes.length + 1 := by
    have h1 : (mapUniv nodes \ kept3 nodes targets mEnum).card ≤
        (mapUniv nodes).card := Finset.card_le_card Finset.sdiff_subset
    have h2 := mapUniv_card_le nodes
    omega
  have heq : kept_ids nodes targets mEnum kEnum =
      step4 nodes (nodes.length + 1) kEnum (kept3 nodes targets mEnum) := rfl
  rw [heq,
    step4_char nodes (nodes.length + 1) kEnum (kept3 nodes targets mEnum)
      hcard hmemk y,
    specKeep]
  constructor
  · rintro ⟨b, hb, hr⟩
    exact ⟨b, (kept3_char nodes targets mEnum hnd hm b).mp hb, hr⟩
  · rintro ⟨b, hb, hr⟩
    exact ⟨b, (kept3_char nodes targets mEnum hnd hm b).mpr hb, hr⟩

/-! ## Theorems: filter retention (claim C5) -/

/-- C5: for every flat node list with duplicate-free ids, every target set,
and every iteration order of the matched set and of the expanded kept set,
the filter retains exactly the roots, the name matches, the descendants of
the matches, and every ancestor of a retained node; on the concrete chain
`R → A → B → C` with sibling `D` and target name `beta` it keeps exactly
`{R, A, B, C}` and never `D`, and with an unmatched target name it keeps
only the root. -/
theorem C5_filter_retains_exact_closure
    (nodes : List GNode) (targets mEnum kEnum : List String)
    (hnd : (nodes.map GNode.id).Nodup)
    (hm : IsEnumOf mEnum (matched_ids nodes targets).toFinset)
    (hk : IsEnumOf kEnum (kept3 nodes targets mEnum)) :
    (∀ i, i ∈ kept_ids nodes targets mEnum kEnum ↔
      specKeep nodes targets i) ∧
    kept_ids chainNodes ["beta"] ["B"] ["R", "B", "C"] =
      {"R", "A", "B", "C"} ∧
    "D" ∉ kept_ids chainNodes ["beta"] ["B"] ["R", "B", "C"] ∧
    kept_ids chainNodes ["Newton Laws"] [] ["R"] = {"R"} :=
  ⟨kept_ids_char nodes targets mEnum kEnum hnd hm hk,
    by decide, by decide, by decide⟩

theorem C5_filter_retains_exact_closure_witness :
    (chainNodes.map GNode.id).Nodup ∧
    IsEnumOf ["B"] (matched_ids chainNodes ["beta"]).toFinset ∧
    IsEnumOf ["R", "B", "C"] (kept3 chainNodes ["beta"] ["B"]) ∧
    ("B" ∈ kept_ids chainNodes ["beta"] ["B"] ["R", "B", "C"] ↔
      specKeep chainNodes ["beta"] "B") :=
  ⟨by decide, by decide, by decide,
    (C5_filter_retains_exact_closure chainNodes ["beta"] ["B"]
      ["R", "B", "C"] (by decide) (by decide) (by decide)).1 "B"⟩

/-! ## Theorems: output order and termination (claims C9 and C10) -/

theorem filterMap_dictGet_map_id (nodes : List GNode) :
    ∀ e : List String,
      (e.filterMap (fun i => dictGet? (node_map nodes) i)).map GNode.id =
        e.filter (fun i => (dictGet? (node_map nodes) i).isSome) := by
  intro e
  induction e with
  | nil => rfl
  | cons x xs ih =>
    rw [List.filterMap_cons, List.filter_cons]
    cases hv : dictGet? (node_map nodes) x with
    | none =>
      simp only [hv, Option.isSome_none, Bool.false_eq_true, if_false]
      exact ih
    | some v =>
      simp only [hv, Option.isSome_some, if_true, List.map_cons]
      rw [dictGet?_id nodes hv, ih]

/-- C9 is refuted on `twinNodes`: the final output iterates over the kept-id
SET, whose iteration order is unspecified, so a valid iteration order exists
whose output is not a sublist of the input — the output order is not
guaranteed stable relative to the input list. -/
theorem C9_counterexample_set_iteration_order :
    (twinNodes.map GNode.id).Nodup ∧
    IsEnumOf ["A", "B"] (matched_ids twinNodes ["t"]).toFinset ∧
    IsEnumOf ["R", "A", "B"] (kept3 twinNodes ["t"] ["A", "B"]) ∧
    IsEnumOf ["B", "A", "R"]
      (kept_ids twinNodes ["t"] ["A", "B"] ["R", "A", "B"]) ∧
    ¬ ((filtered_output twinNodes ["B", "A", "R"]).map GNode.id).Sublist
        (twinNodes.map GNode.id) := by
  refine ⟨by decide, by decide, by decide, by decide, by decide⟩

/-- C9 (amended): the filter output is determined only up to the unspecified
iteration order of the kept-id set — for any two valid iteration orders of
the same kept set the outputs are permutations of one another, the output
ids are duplicate-free, and an id occurs in the output exactly when it is
kept and present in the node map; input-relative order is NOT guaranteed. -/
theorem C9_output_order_unspecified
    (nodes : List GNode) (kept : Finset String) (e1 e2 : List String)
    (h1 : IsEnumOf e1 kept) (h2 : IsEnumOf e2 kept) :
    (filtered_output nodes e1).Perm (filtered_output nodes e2) ∧
    ((filtered_output nodes e1).map GNode.id).Nodup ∧
    (∀ i, i ∈ (filtered_output nodes e1).map GNode.id ↔
      i ∈ kept ∧ (dictGet? (node_map nodes) i).isSome) := by
  have hperm : e1.Perm e2 :=
    List.perm_of_nodup_nodup_toFinset_eq h1.1 h2.1 (h1.2.trans h2.2.symm)
  refine ⟨List.Perm.filterMap _ hperm, ?_, ?_⟩
  · rw [filtered_output, filterMap_dictGet_map_id]
    exact h1.1.filter _
  · intro i
    rw [filtered_output, filterMap_dictGet_map_id, List.mem_filter,
      enum_mem h1 i]

theorem C9_output_order_unspecified_witness :
    IsEnumOf ["B", "A", "R"]
      (kept_ids twinNodes ["t"] ["A", "B"] ["R", "A", "B"]) ∧
    IsEnumOf ["R", "A", "B"]
      (kept_ids twinNodes ["t"] ["A", "B"] ["R", "A", "B"]) ∧
    (filtered_output twinNodes ["B", "A", "R"]).Perm
      (filtered_output twinNodes ["R", "A", "B"]) :=
  ⟨by decide, by decide,
    (C9_output_order_unspecified twinNodes
      (kept_ids twinNodes ["t"] ["A", "B"] ["R", "A", "B"])
      ["B", "A", "R"] ["R", "A", "B"] (by decide) (by decide)).1⟩

/-- C10: the filter terminates on every finite input — both fuelled loops
are stable once the fuel reaches the canonical bound, including on parent
cycles and dangling parent references — and the output duplicates no node:
with a duplicate-free iteration order of the kept set the output ids are
duplicate-free; concretely, on a graph with a parent cycle `X ↔ Y` and a
dangling reference the filter evaluates and keeps exactly `{R, X, Y}`. -/
theorem C10_filter_terminates_no_duplicates
    (nodes : List GNode) (oEnum : List String) (extra : Nat)
    (hnd : oEnum.Nodup) :
    ((filtered_output nodes oEnum).map GNode.id).Nodup ∧
    (∀ (targets mEnum kEnum : List String),
      bfs nodes (mEnum.length + nodes.length + 1 + extra) mEnum
          (kept0 nodes targets) =
        kept3 nodes targets mEnum ∧
      step4 nodes (nodes.length + 1 + extra) kEnum
          (kept3 nodes targets mEnum) =
        kept_ids nodes targets mEnum kEnum) ∧
    IsEnumOf ["R", "X", "Y"]
      (kept_ids cyclicNodes ["x"] ["X"] ["R", "X", "Y"]) ∧
    (filtered_output cyclicNodes ["R", "X", "Y"]).map GNode.id =
      ["R", "X", "Y"] := by
  refine ⟨?_, ?_, by decide, by decide⟩
  · rw [filtered_output, filterMap_dictGet_map_id]
    exact hnd.filter _
  · intro targets mEnum kEnum
    have hbd : (idsUniv nodes \ kept0 nodes targets).card + mEnum.length ≤
        mEnum.length + nodes.length + 1 := by
      have h1 : (idsUniv nodes \ kept0 nodes targets).card ≤
          (idsUniv nodes).card := Finset.card_le_card Finset.sdiff_subset
      have h2 := idsUniv_card_le nodes
      omega
    have hbd3 : (mapUniv nodes \ kept3 nodes targets mEnum).card <
        nodes.length + 1 := by
      have h1 : (mapUniv nodes \ kept3 nodes targets mEnum).card ≤
          (mapUniv nodes).card := Finset.card_le_card Finset.sdiff_subset
      have h2 := mapUniv_card_le nodes
      omega
    constructor
    · rw [kept3]
      exact bfs_fuel_stable nodes (mEnum.length + nodes.length + 1 + extra)
        (mEnum.length + nodes.length + 1) mEnum (kept0 nodes targets)
        (by omega) hbd
    · rw [kept_ids]
      exact step4_fuel_stable nodes kEnum (nodes.length + 1 + extra)
        (nodes.length + 1) (kept3 nodes targets mEnum) (by omega) hbd3

theorem C10_filter_terminates_no_duplicates_witness :
    (["R", "X", "Y"] : List String).Nodup ∧
    ((filtered_output cyclicNodes ["R", "X", "Y"]).map GNode.id).Nodup :=
  ⟨by decide,
    (C10_filter_terminates_no_duplicates cyclicNodes ["R", "X", "Y"] 0
      (by decide)).1⟩

end StudyingHelper
